import Mathlib

/-!
Verification development for the discrete-state dynamic-programming / HMM
inference code of the course repository.

Embedded components:

* `HMMBB` — the two-state bear/bull hidden Markov model class from
  `lectures/L08_hidden_markov_models/02_hmm_continued.ipynb`
  (`forward`, `filter_probabilities`, `backward`, `smooth_probabilities`,
  `ffbs`, `viterbi`), with probabilities as exact rationals (`ℚ`), so all
  statements are about the algorithms in exact real arithmetic.
* `BruteForceShortestPath` and `DynamicProgrammingShortestPath` — the
  shortest-path solvers from the dynamic-programming lecture notebook
  (`traverse_paths`, `find_shortest_paths`, `find_cost_function`,
  `find_shortest_path`), with edge costs as exact rationals.

Numeric conventions used throughout the embedding:

* `numpy` arrays of shape `(T, 2)` become `List (ℚ × ℚ)` (one pair per row).
* The source's `np.exp(np.log a + np.log b + np.log c)` equals `a * b * c`
  in exact real arithmetic for nonnegative inputs, so log-space products
  are embedded multiplicatively.
* `np.argmax` over a length-2 vector returns the first maximizer:
  `argmax2 (v₁, v₂) = if v₁ < v₂ then 1 else 0`.  Comparisons of sums of
  logarithms coincide with comparisons of the corresponding products
  (strict monotonicity of `log`), so the log-space argmax/max of the
  source is embedded as the product-space argmax/max.
* Python `while` loops become fuel-indexed recursions returning `Option`;
  `none` means the loop was still running when the fuel ran out (the
  source has no iteration cap).
* Python dicts keyed by vertices become association lists
  (`List (V × ℚ)`), preserving insertion order.

The `Rat` arithmetic operations are made semireducible so that concrete
runs of the embedded algorithms can be evaluated by `decide`.
-/

attribute [local semireducible] Rat.add Rat.mul Rat.inv Rat.sub

set_option maxRecDepth 1000000

/-! ## The two-state HMM class `HMMBB` -/

/-- The `HMMBB` class state: constructor arguments of `HMMBB.__init__`.
`P = [[p_bear, 1 - p_bear], [1 - p_bull, p_bull]]` and the emission matrix
`emp = row_stack([r_bear_probs, r_bull_probs])` are derived below. -/
structure HMMBB where
  p_bear : ℚ
  p_bull : ℚ
  r_bear_probs : List ℚ
  r_bull_probs : List ℚ

/-- Transition matrix `self.P` built by `HMMBB.__init__`:
`np.array([[p_bear, 1 - p_bear], [1 - p_bull, p_bull]])`. -/
def HMMBB.P (m : HMMBB) (i j : Fin 2) : ℚ :=
  if i = 0 then (if j = 0 then m.p_bear else 1 - m.p_bear)
  else (if j = 0 then 1 - m.p_bull else m.p_bull)

/-- Emission matrix `self.emp = np.row_stack([r_bear_probs, r_bull_probs])`;
`emp i y` is entry `emp[i, y]` (`0` off the end, which the source never reads
for in-range observation symbols). -/
def HMMBB.emp (m : HMMBB) (i : Fin 2) (y : ℕ) : ℚ :=
  (if i = 0 then m.r_bear_probs else m.r_bull_probs).getD y 0

/-- Construction of an `HMMBB`, including the eager validation that actually
runs inside `HMMBB.__init__`: `qe.MarkovChain(self.P)` (the quantecon
constructor rejects matrices with negative entries or rows not summing to 1)
and `np.row_stack` (which rejects rows of unequal length).  No check is
performed on the emission probabilities' values. -/
def mkHMMBB (p_bear p_bull : ℚ) (r_bear_probs r_bull_probs : List ℚ) :
    Except String HMMBB :=
  if p_bear < 0 ∨ 1 - p_bear < 0 ∨ p_bull < 0 ∨ 1 - p_bull < 0 then
    .error "MarkovChain: P must be nonnegative"
  else if ¬(p_bear + (1 - p_bear) = 1 ∧ (1 - p_bull) + p_bull = 1) then
    .error "MarkovChain: rows of P must sum to 1"
  else if r_bear_probs.length ≠ r_bull_probs.length then
    .error "row_stack: rows have mismatched lengths"
  else .ok ⟨p_bear, p_bull, r_bear_probs, r_bull_probs⟩

/-- One step of the forward recursion (the body of the `for t in range(1, T)`
loop in `HMMBB.forward`): `predictor_i = Σ_j alphas[t-1, j] * P[j, i]` and
`alphas[t, i] = emp[i, y_t] * predictor_i`. -/
def HMMBB.alphaStep (m : HMMBB) (prev : ℚ × ℚ) (yt : ℕ) : ℚ × ℚ :=
  (m.emp 0 yt * (prev.1 * m.P 0 0 + prev.2 * m.P 1 0),
   m.emp 1 yt * (prev.1 * m.P 0 1 + prev.2 * m.P 1 1))

/-- `HMMBB.forward`: the `T × 2` table of `alpha` values.  Row `0` is
`emp[i, y_0] * 0.5` (equal probability of starting in bear/bull), and each
later row is `alphaStep` of the previous one. -/
def HMMBB.forward (m : HMMBB) : List ℕ → List (ℚ × ℚ)
  | [] => []
  | y0 :: rest =>
      List.scanl m.alphaStep (m.emp 0 y0 * (1/2), m.emp 1 y0 * (1/2)) rest

/-- Row-wise normalization `row / row.sum()`, as used by
`HMMBB.filter_probabilities` (`alphas / np.sum(alphas, axis=1)[:, None]`)
and by the re-normalization step inside `HMMBB.ffbs`. -/
def normalize_row (a : ℚ × ℚ) : ℚ × ℚ :=
  (a.1 / (a.1 + a.2), a.2 / (a.1 + a.2))

/-- `HMMBB.filter_probabilities`: normalize each row of the `alpha` table. -/
def HMMBB.filter_probabilities (_m : HMMBB) (alphas : List (ℚ × ℚ)) :
    List (ℚ × ℚ) :=
  alphas.map normalize_row

/-- One step of the backward recursion (the body of the
`for tp1 in range(T-1, 0, -1)` loop in `HMMBB.backward`).  The source
computes each summand as `np.exp(log emp[j, y_{t+1}] + log betas[t+1, j]
+ log P[i, j])`, which in exact real arithmetic is the plain product. -/
def HMMBB.betaStep (m : HMMBB) (next : ℚ × ℚ) (ytp1 : ℕ) : ℚ × ℚ :=
  (m.emp 0 ytp1 * next.1 * m.P 0 0 + m.emp 1 ytp1 * next.2 * m.P 0 1,
   m.emp 0 ytp1 * next.1 * m.P 1 0 + m.emp 1 ytp1 * next.2 * m.P 1 1)

/-- `HMMBB.backward`: the `T × 2` table of `beta` values; the last row is
`(1, 1)` and each earlier row is `betaStep` of the following one. -/
def HMMBB.backward (m : HMMBB) : List ℕ → List (ℚ × ℚ)
  | [] => []
  | [_] => [(1, 1)]
  | _ :: y1 :: rest =>
      let tl := HMMBB.backward m (y1 :: rest)
      m.betaStep (tl.headD (1, 1)) y1 :: tl

/-- One row of `HMMBB.smooth_probabilities`:
`alphas * betas / np.sum(alphas * betas, axis=1)[:, None]`. -/
def smooth_row (a b : ℚ × ℚ) : ℚ × ℚ :=
  (a.1 * b.1 / (a.1 * b.1 + a.2 * b.2),
   a.2 * b.2 / (a.1 * b.1 + a.2 * b.2))

/-- `HMMBB.smooth_probabilities` applied to the `alpha` and `beta` tables. -/
def HMMBB.smooth_probabilities (_m : HMMBB) (alphas betas : List (ℚ × ℚ)) :
    List (ℚ × ℚ) :=
  List.zipWith smooth_row alphas betas

/-! ### FFBS

`qe.DiscreteRV(probs).draw()` draws a uniform variate `u` from the global
numpy random state and returns the index selected by the inverse CDF.  The
embedding threads the stream of uniform variates explicitly (`List ℚ`): each
draw consumes the head of the stream.  In addition to the sampled path and
the remaining stream, the embedded loop also records, as a ghost output, the
weight vector each `x_t` was drawn from (index `t` of the middle component),
so that statements can talk about the distribution sampled at each step. -/

/-- Inverse-CDF draw from a two-point distribution `(q₀, q₁)` given a
uniform variate `u` (`searchsorted` on the cumulative sum). -/
def draw2 (probs : ℚ × ℚ) (u : ℚ) : Fin 2 :=
  if u ≤ probs.1 then 0 else 1

/-- The backward-sampling loop of `HMMBB.ffbs`
(`for t in range(T-1, -1, -1)`), with the loop index descending from
`T-1` to `0`.  Returns `(x_sample, weights used at each t, remaining
stream)`.  Note the source guards the weight update with `if t-1 > 0`
(here `0 < t` after the index shift), so no update happens when the next
index is `0`. -/
def HMMBB.ffbsLoop (m : HMMBB) (betas : List (ℚ × ℚ)) :
    ℕ → (ℚ × ℚ) → List ℚ → List (Fin 2) × List (ℚ × ℚ) × List ℚ
  | 0, probs, us => ([draw2 probs (us.headD 0)], [probs], us.tail)
  | t + 1, probs, us =>
      let xt := draw2 probs (us.headD 0)
      let probs' :=
        if 0 < t then
          normalize_row
            (m.P 0 xt * (betas.getD t (0, 0)).1,
             m.P 1 xt * (betas.getD t (0, 0)).2)
        else probs
      let r := HMMBB.ffbsLoop m betas t probs' us.tail
      (r.1 ++ [xt], r.2.1 ++ [probs], r.2.2)

/-- `HMMBB.ffbs`: forward-filter backward-sample, consuming uniform
variates from the explicitly threaded stream `us` (the source reads them
from the global numpy random state).  The path and weight lists are in
time order `0 … T-1`.  For empty input the source raises (indexing
`filtered_probabilities[-1]` of an empty array); here it returns no draws. -/
def HMMBB.ffbs (m : HMMBB) (y : List ℕ) (us : List ℚ) :
    List (Fin 2) × List (ℚ × ℚ) × List ℚ :=
  match y with
  | [] => ([], [], us)
  | _ :: _ =>
      let alphas := m.forward y
      let betas := m.backward y
      let filtered := m.filter_probabilities alphas
      HMMBB.ffbsLoop m betas (y.length - 1) (filtered.getLastD (0, 0)) us

/-! ### Viterbi

The source computes `log_mus` in log space, initialized with `np.ones((T, 2))`
and never writing row `T-1`, so `log_mus[T-1, :] = (1, 1)` and every entry of
row `t` equals `1 + log ν[t]` where `ν` is the multiplicative table below
with `ν[T-1] = (1, 1)` (the additive constant `1` propagates uniformly
through each `max`).  Since `log` is strictly monotone and the constant
offset is uniform within each row, every `max`/`argmax` the source takes in
log space coincides with the corresponding `max`/`argmax` of products;
the embedding therefore works with `ν` directly. -/

/-- First-maximizer `np.argmax` over a length-2 vector. -/
def argmax2 (v : ℚ × ℚ) : Fin 2 :=
  if v.1 < v.2 then 1 else 0

/-- One step of the `log_mus` recursion of `HMMBB.viterbi`, in product
space: `ν[t-1, i] = max over xt of emp[xt, y_t] * P[i, xt] * ν[t, xt]`. -/
def HMMBB.nuStep (m : HMMBB) (next : ℚ × ℚ) (yt : ℕ) : ℚ × ℚ :=
  (max (m.emp 0 yt * m.P 0 0 * next.1) (m.emp 1 yt * m.P 0 1 * next.2),
   max (m.emp 0 yt * m.P 1 0 * next.1) (m.emp 1 yt * m.P 1 1 * next.2))

/-- The `T × 2` table `ν` with `log_mus[t, i] = 1 + log ν[t, i]`:
row `T-1` is `(1, 1)` (the untouched `np.ones` initialization, whose
log-space value is `1`, not `0`) and each earlier row is `nuStep` of the
following one. -/
def HMMBB.nuTable (m : HMMBB) : List ℕ → List (ℚ × ℚ)
  | [] => []
  | [_] => [(1, 1)]
  | _ :: y1 :: rest =>
      let tl := HMMBB.nuTable m (y1 :: rest)
      m.nuStep (tl.headD (1, 1)) y1 :: tl

/-- The final decoding loop of `HMMBB.viterbi` (`for t in range(T)`): from
predecessor state `prev`, pick
`x_t = argmax over i of emp[i, y_t] * P[prev, i] * ν[t, i]` and continue
with `prev := x_t`. -/
def HMMBB.decodeFrom (m : HMMBB) : Fin 2 → List (ℕ × (ℚ × ℚ)) → List (Fin 2)
  | _, [] => []
  | prev, (yt, nut) :: rest =>
      let xt := argmax2
        (m.emp 0 yt * m.P prev 0 * nut.1, m.emp 1 yt * m.P prev 1 * nut.2)
      xt :: HMMBB.decodeFrom m xt rest

/-- `HMMBB.viterbi`.  The source first sets
`xt_star[0] = argmax(log emp[:, y_0] + log 0.5 + log_mus[0, :])`, but its
final loop runs `for t in range(T)` — starting at `t = 0`, not `t = 1` — so
that assignment is immediately overwritten using `P[xt_star[-1], :]`, where
`xt_star[-1]` is the zero-initialized last entry (`0`) when `T ≥ 2` and the
just-computed initial state when `T = 1`.  The embedding reproduces this. -/
def HMMBB.viterbi (m : HMMBB) (y : List ℕ) : List (Fin 2) :=
  match y with
  | [] => []
  | y0 :: rest =>
      let nus := m.nuTable (y0 :: rest)
      let nu0 := nus.headD (1, 1)
      let xinit := argmax2
        (m.emp 0 y0 * (1/2) * nu0.1, m.emp 1 y0 * (1/2) * nu0.2)
      let prev0 : Fin 2 := if rest.isEmpty then xinit else 0
      m.decodeFrom prev0 ((y0 :: rest).zip nus)

/-! ### Reference joint probability and path enumeration

Used to state likelihood and optimality claims: the joint probability of a
hidden path and the observations, with the uniform initial distribution
`π₀ = (1/2, 1/2)` the source hard-codes, and the list of all `2^T` hidden
state sequences of length `T`. -/

/-- `contProb m prev ys xs`: probability of continuation path `xs` with
observations `ys` given current hidden state `prev`:
`Π_t P[x_{t-1}, x_t] * emp[x_t, y_t]` (`0` on length mismatch). -/
def contProb (m : HMMBB) : Fin 2 → List ℕ → List (Fin 2) → ℚ
  | _, [], [] => 1
  | prev, yt :: yr, xt :: xr => m.P prev xt * m.emp xt yt * contProb m xt yr xr
  | _, _, _ => 0

/-- Joint probability `P(x_{0..T-1}, y_{0..T-1})` of a hidden path under the
model, with the uniform initial distribution at `t = 0`. -/
def pathJoint (m : HMMBB) : List ℕ → List (Fin 2) → ℚ
  | [], [] => 1
  | y0 :: yr, x0 :: xr => (1/2) * m.emp x0 y0 * contProb m x0 yr xr
  | _, _ => 0

/-- All `2^n` hidden state sequences of length `n`. -/
def allSeqs : ℕ → List (List (Fin 2))
  | 0 => [[]]
  | n + 1 => (allSeqs n).map (List.cons 0) ++ (allSeqs n).map (List.cons 1)

/-- Total probability of an observation sequence: the sum of the joint
probability over all hidden state sequences of the same length. -/
def totalProb (m : HMMBB) (y : List ℕ) : ℚ :=
  ((allSeqs y.length).map (pathJoint m y)).sum

/-! ## The shortest-path solvers

Both `BruteForceShortestPath` and `DynamicProgrammingShortestPath` are
constructed from the same data `(dag, vertex, terminal)` and define identical
`is_at_end`, `available_actions` and `evaluate_path` methods; the shared data
and methods live on `ShortestPathProblem`, and the class-specific methods are
in the namespaces named after the source classes.  The Python cost dict
`{v: {w: c, ...}, ...}` is embedded as an insertion-ordered association list
`List (V × List (V × ℚ))`. -/

variable {V : Type} [DecidableEq V]

/-- Constructor state shared by both solver classes:
`self.dag`, `self.vertex`, `self.terminal`. -/
structure ShortestPathProblem (V : Type) where
  dag : List (V × List (V × ℚ))
  vertex : V
  terminal : V

/-- `self.dag.keys()`, in insertion order. -/
def ShortestPathProblem.keys (g : ShortestPathProblem V) : List V :=
  g.dag.map Prod.fst

/-- The edge dict `self.dag[v]` (the source raises `KeyError` for a missing
key; the default `[]` is never reached in the runs reasoned about). -/
def ShortestPathProblem.edges (g : ShortestPathProblem V) (v : V) :
    List (V × ℚ) :=
  (g.dag.lookup v).getD []

/-- `is_at_end`. -/
def ShortestPathProblem.is_at_end (g : ShortestPathProblem V) (v : V) : Bool :=
  v = g.terminal

/-- `available_actions`: `[]` at the terminal, else `list(self.dag[v].keys())`. -/
def ShortestPathProblem.available_actions (g : ShortestPathProblem V) (v : V) :
    List V :=
  if g.is_at_end v then [] else (g.edges v).map Prod.fst

/-- The edge cost `self.dag[v][w]` (default `0` never reached for edges that
exist). -/
def ShortestPathProblem.cost (g : ShortestPathProblem V) (v w : V) : ℚ :=
  ((g.edges v).lookup w).getD 0

/-- `evaluate_path`: `sum(dag[p_i][p_{i+1}] for i in range(len(p) - 1))`. -/
def ShortestPathProblem.evaluate_path (g : ShortestPathProblem V) :
    List V → ℚ
  | [] => 0
  | [_] => 0
  | a :: b :: rest => g.cost a b + ShortestPathProblem.evaluate_path g (b :: rest)

/-- Python `min` of a list of values (the source never applies it to an empty
dict; the `[]` case is arbitrary). -/
def listMin : List ℚ → ℚ
  | [] => 0
  | a :: as => as.foldl min a

/-- `step_back_path`: drop the last element, return the new last element and
path; `none` embeds the `IndexError` the source raises when the shortened
path is empty. -/
def BruteForceShortestPath.step_back_path (cpath : List V) :
    Option (V × List V) :=
  match cpath.dropLast.getLast? with
  | none => none
  | some v => some (v, cpath.dropLast)

/-- The `while len(cpath) > 0` loop of `BruteForceShortestPath.traverse_paths`,
as a fuel-indexed recursion over the mutable state
`(cnode, cpath, available_actions dict, paths_costs dict)`.  New complete
paths are appended at the end (dict insertion order); `none` means either
exhausted fuel or the `IndexError` crash of `step_back_path`. -/
def BruteForceShortestPath.traverse_loop (g : ShortestPathProblem V) :
    ℕ → V → List V → (V → List V) → List (List V × ℚ) →
      Option (List (List V × ℚ))
  | 0, _, _, _, _ => none
  | fuel + 1, cnode, cpath, avail, acc =>
      if cpath.isEmpty then some acc
      else
        let cactions := avail cnode
        if g.is_at_end cnode then
          let acc' := acc ++ [(cpath, g.evaluate_path cpath)]
          match BruteForceShortestPath.step_back_path cpath with
          | none => none
          | some (cnode', cpath') =>
              BruteForceShortestPath.traverse_loop g fuel cnode' cpath' avail acc'
        else if cactions = [] ∧ 1 < cpath.length then
          let avail' := Function.update avail cnode (g.available_actions cnode)
          match BruteForceShortestPath.step_back_path cpath with
          | none => none
          | some (cnode', cpath') =>
              BruteForceShortestPath.traverse_loop g fuel cnode' cpath' avail' acc
        else
          match cactions.getLast? with
          | some caction =>
              let avail' := Function.update avail cnode cactions.dropLast
              BruteForceShortestPath.traverse_loop g fuel caction
                (cpath ++ [caction]) avail' acc
          | none => some acc

/-- `BruteForceShortestPath.traverse_paths`, from the initial state:
current node `self.vertex`, path `[self.vertex]`, full action dict, empty
`paths_costs`. -/
def BruteForceShortestPath.traverse_paths (g : ShortestPathProblem V)
    (fuel : ℕ) : Option (List (List V × ℚ)) :=
  BruteForceShortestPath.traverse_loop g fuel g.vertex [g.vertex]
    (fun v => g.available_actions v) []

/-- `BruteForceShortestPath.find_shortest_paths`: all stored paths whose cost
is at most the minimum cost. -/
def BruteForceShortestPath.find_shortest_paths (g : ShortestPathProblem V)
    (fuel : ℕ) : Option (List (List V)) :=
  (BruteForceShortestPath.traverse_paths g fuel).map fun paths_costs =>
    let min_cost := listMin (paths_costs.map Prod.snd)
    (paths_costs.filter fun pc => pc.2 ≤ min_cost).map Prod.fst

/-- `DynamicProgrammingShortestPath.compare_J`:
`max(|J_n[k] - J_np1[k]| for k in dag.keys())` (the fold with seed `0` agrees
with Python's `max` because the entries are absolute values). -/
def DynamicProgrammingShortestPath.compare_J (g : ShortestPathProblem V)
    (Jn Jnp1 : List (V × ℚ)) : ℚ :=
  (g.keys.map fun k => |(Jn.lookup k).getD 0 - (Jnp1.lookup k).getD 0|).foldl max 0

/-- `DynamicProgrammingShortestPath.eval_action`: `dag[v][w] + J[w]`. -/
def DynamicProgrammingShortestPath.eval_action (g : ShortestPathProblem V)
    (v w : V) (J : List (V × ℚ)) : ℚ :=
  g.cost v w + (J.lookup w).getD 0

/-- `DynamicProgrammingShortestPath.bellman_equation`: `0` at the terminal,
else the minimum of `eval_action` over the available actions. -/
def DynamicProgrammingShortestPath.bellman_equation (g : ShortestPathProblem V)
    (v : V) (J : List (V × ℚ)) : ℚ :=
  if v = g.terminal then 0
  else listMin ((g.available_actions v).map fun w =>
    DynamicProgrammingShortestPath.eval_action g v w J)

/-- The source's convergence tolerance `1e-10`. -/
def DynamicProgrammingShortestPath.tol : ℚ := 1 / 10000000000

/-- The `while self.compare_J(J_n, J_np1) > 1e-10` loop from
`find_cost_function`.  Each pass copies `J_np1` into `J_n` and rewrites every
entry of `J_np1` with `bellman_equation(node, J_n)`.  The source has no
iteration cap: `none` means the loop was still running when the fuel ran
out. -/
def DynamicProgrammingShortestPath.fcf_loop (g : ShortestPathProblem V) :
    ℕ → List (V × ℚ) → List (V × ℚ) → Option (List (V × ℚ))
  | 0, J_n, J_np1 =>
      if DynamicProgrammingShortestPath.tol <
          DynamicProgrammingShortestPath.compare_J g J_n J_np1 then none
      else some J_np1
  | fuel + 1, J_n, J_np1 =>
      if DynamicProgrammingShortestPath.tol <
          DynamicProgrammingShortestPath.compare_J g J_n J_np1 then
        DynamicProgrammingShortestPath.fcf_loop g fuel J_np1
          (g.keys.map fun node =>
            (node, DynamicProgrammingShortestPath.bellman_equation g node J_np1))
      else some J_np1

/-- `DynamicProgrammingShortestPath.find_cost_function`: the loop above from
the initial guesses `J_n = {v: 100}`, `J_np1 = {v: 0}`. -/
def DynamicProgrammingShortestPath.find_cost_function (g : ShortestPathProblem V)
    (fuel : ℕ) : Option (List (V × ℚ)) :=
  DynamicProgrammingShortestPath.fcf_loop g fuel
    (g.keys.map fun v => (v, 100)) (g.keys.map fun v => (v, 0))

/-- The body of the `for w in actions` loop inside
`DynamicProgrammingShortestPath.find_shortest_path`: starting from
`optimal_action = actions[0]` and `min_cost = 1e10`, replace the pair by
`(w, eval_action(v, w, J))` whenever the action value strictly improves the
running minimum, and return the final `optimal_action`. -/
def DynamicProgrammingShortestPath.choose_action (g : ShortestPathProblem V)
    (v : V) (J : List (V × ℚ)) (a0 : V) (actions : List V) : V :=
  (actions.foldl
    (fun p w =>
      if DynamicProgrammingShortestPath.eval_action g v w J < p.2 then
        (w, DynamicProgrammingShortestPath.eval_action g v w J)
      else p)
    (a0, 10000000000)).1

/-- The `while not self.is_at_end(cnode)` loop of
`DynamicProgrammingShortestPath.find_shortest_path`: at each node take the
first action strictly improving on the running minimum (`choose_action`)
and append it.  `none` embeds exhausted fuel or the `IndexError` raised by
`actions[0]` when a non-terminal node has no actions. -/
def DynamicProgrammingShortestPath.fsp_loop (g : ShortestPathProblem V)
    (J : List (V × ℚ)) : ℕ → V → List V → Option (List V)
  | 0, cnode, cpath =>
      if g.is_at_end cnode then some cpath else none
  | fuel + 1, cnode, cpath =>
      if g.is_at_end cnode then some cpath
      else
        match g.available_actions cnode with
        | [] => none
        | a0 :: rest =>
            DynamicProgrammingShortestPath.fsp_loop g J fuel
              (DynamicProgrammingShortestPath.choose_action g cnode J a0 (a0 :: rest))
              (cpath ++ [DynamicProgrammingShortestPath.choose_action g cnode J a0 (a0 :: rest)])

/-- `DynamicProgrammingShortestPath.find_shortest_path`, started from
`cnode = self.vertex`, `cpath = [self.vertex]`. -/
def DynamicProgrammingShortestPath.find_shortest_path (g : ShortestPathProblem V)
    (J : List (V × ℚ)) (fuel : ℕ) : Option (List V) :=
  DynamicProgrammingShortestPath.fsp_loop g J fuel g.vertex [g.vertex]

/-! ## Concrete instances used by the claim theorems -/

/-- A generic two-state model with two return symbols:
`HMMBB(0.7, 0.6, [0.6, 0.4], [0.2, 0.8])`. -/
def hmmEx1 : HMMBB := ⟨7/10, 3/5, [3/5, 2/5], [1/5, 4/5]⟩

/-- `HMMBB(0.05, 0.5, [0.6, 0.4], [0.4, 0.6])`: a model whose first
transition row strongly favors state `1`. -/
def hmmEx2 : HMMBB := ⟨1/20, 1/2, [3/5, 2/5], [2/5, 3/5]⟩

/-- A 2-state, 3-emission model
`HMMBB(0.1, 0.5, [0.6, 0.2, 0.2], [0.4, 0.3, 0.3])`. -/
def hmmEx3 : HMMBB := ⟨1/10, 1/2, [3/5, 1/5, 1/5], [2/5, 3/10, 3/10]⟩

/-- The lecture's example graph
`A→B(1), A→C(5), A→D(3), B→D(9), B→E(6), C→F(2), D→F(4), D→G(8), E→G(4),
F→G(1), G→{}` with start `A` and terminal `G`. -/
def simpleG : ShortestPathProblem String :=
  ⟨[("A", [("B", 1), ("C", 5), ("D", 3)]),
    ("B", [("D", 9), ("E", 6)]),
    ("C", [("F", 2)]),
    ("D", [("F", 4), ("G", 8)]),
    ("E", [("G", 4)]),
    ("F", [("G", 1)]),
    ("G", [])], "A", "G"⟩

/-- A graph with a negative-cost cycle `A→B(-1), B→A(-1)` and an unreachable
terminal `G`: the Bellman iteration never meets the tolerance on it. -/
def negCycleG : ShortestPathProblem String :=
  ⟨[("A", [("B", -1)]), ("B", [("A", -1)]), ("G", [])], "A", "G"⟩

/-- An acyclic graph whose edge costs are below the `1e-10` tolerance
(`ε = 1e-13`): `A→B(0), A→C(ε), B→D(0), C→T(ε), D→T(1000ε)`, terminal `T`.
The fixed-point loop stops after one pass, before converging. -/
def tinyCostG : ShortestPathProblem String :=
  ⟨[("A", [("B", 0), ("C", 1/10000000000000)]),
    ("B", [("D", 0)]),
    ("C", [("T", 1/10000000000000)]),
    ("D", [("T", 1/10000000000)]),
    ("T", [])], "A", "T"⟩

/-- An acyclic graph whose action values exceed the `1e10` sentinel used to
initialize `min_cost` in `find_shortest_path`:
`A→B(3e10), A→C(2e10), B→T(0), C→T(0)`, terminal `T`. -/
def hugeCostG : ShortestPathProblem String :=
  ⟨[("A", [("B", 30000000000), ("C", 20000000000)]),
    ("B", [("T", 0)]),
    ("C", [("T", 0)]),
    ("T", [])], "A", "T"⟩

/-- The rank function witnessing acyclicity of `simpleG` (strictly
decreasing along every edge). -/
def simpleRank : String → ℕ := fun v =>
  (([("A", 4), ("B", 3), ("C", 2), ("D", 2), ("E", 1), ("F", 1),
    ("G", 0)] : List (String × ℕ)).lookup v).getD 0

/-- The exact Bellman fixed point `find_cost_function` computes on
`simpleG`. -/
def simpleJ : List (String × ℚ) :=
  [("A", 8), ("B", 10), ("C", 3), ("D", 5), ("E", 4), ("F", 1), ("G", 0)]

/-- The path/cost table `traverse_paths` accumulates on `simpleG`. -/
def simpleAcc : List (List String × ℚ) :=
  [(["A", "D", "G"], 11), (["A", "D", "F", "G"], 8), (["A", "C", "F", "G"], 8),
   (["A", "B", "E", "G"], 11), (["A", "B", "D", "G"], 18),
   (["A", "B", "D", "F", "G"], 15)]

/-- Sum of a table row, `np.sum(row)`. -/
def sum2 (v : ℚ × ℚ) : ℚ := v.1 + v.2

/-- Bounded reachability: can `v` reach the terminal within `n` steps along
available actions?  Used to state reachability hypotheses decidably. -/
def reachesIn (g : ShortestPathProblem V) : ℕ → V → Bool
  | 0, v => g.is_at_end v
  | n + 1, v => g.is_at_end v || (g.available_actions v).any (reachesIn g n)

/-- All complete paths from `v` to the terminal with at most `n` edges, in
the exploration order of the brute-force DFS (which pops actions from the
end of the action list, hence the `reverse`). -/
def allPathsFrom (g : ShortestPathProblem V) : ℕ → V → List (List V)
  | 0, v => if g.is_at_end v then [[v]] else []
  | n + 1, v =>
      if g.is_at_end v then [[v]]
      else (g.available_actions v).reverse.flatMap fun w =>
        (allPathsFrom g n w).map fun q => v :: q

/-- The entries the DFS of `traverse_paths` will append to `paths_costs`
from a visit of node `v` reached along the prefix `p`, with still-unexplored
action list `S`: at the terminal, the one completed path; otherwise every
completion through an action of `S`, in exploration order. -/
def pendingRuns (g : ShortestPathProblem V) (N : ℕ) (p : List V) (v : V)
    (S : List V) : List (List V × ℚ) :=
  if g.is_at_end v then [(p ++ [v], g.evaluate_path (p ++ [v]))]
  else S.reverse.flatMap fun w =>
    (allPathsFrom g N w).map fun q =>
      (p ++ [v] ++ q, g.evaluate_path (p ++ [v] ++ q))

/-! ## Claim theorems and supporting lemmas -/

/-- Claim C1 (code bug, failing input): on `hmmEx1` with observations
`[0, 1]` (`T = 2`), the FFBS sampler draws `x_{T-1}` from the normalized
filtered distribution at `T-1` (first conjunct, as claimed), but — because
the weight update is guarded by `if t-1 > 0` instead of `t-1 >= 0` — it
draws `x_0` from those same weights rather than from the normalized
`P[i, x_1] * beta[0, i]` the claim (and the notebook's own derivation)
prescribe: the recorded weight vector at `t = 0` differs from the claimed
distribution (third conjunct).  The second conjunct fixes the sampled
`x_1` used in the claimed distribution. -/
theorem C1_ffbs_x0_weights_bug :
    ((hmmEx1.ffbs [0, 1] [1/3, 1/3]).2.1.getD 1 (0, 0) =
        (hmmEx1.filter_probabilities (hmmEx1.forward [0, 1])).getLastD (0, 0))
    ∧ (hmmEx1.ffbs [0, 1] [1/3, 1/3]).1.getD 1 0 = 0
    ∧ (hmmEx1.ffbs [0, 1] [1/3, 1/3]).2.1.getD 0 (0, 0) ≠
        normalize_row
          (hmmEx1.P 0 0 * ((hmmEx1.backward [0, 1]).getD 0 (0, 0)).1,
           hmmEx1.P 1 0 * ((hmmEx1.backward [0, 1]).getD 0 (0, 0)).2) := by
  decide

/-- Claim C2 (code bug, failing input): on `hmmEx2` with observations
`[0, 0]`, the decoded first state is `1`, whereas the claimed formula
`argmax_i (log E[i, y_0] + log π₀[i] + log_mu[0, i])` — embedded in product
space as `argmax_i (E[i, y_0] * (1/2) * ν[0, i])` — selects `0`: the
source's final loop starts at `t = 0` and overwrites `x*_0` using
`log P[xt_star[-1], :]`.  The last conjunct exhibits the other divergence:
the table row at `T-1` is the untouched `np.ones` initialization, i.e.
`log_mu[T-1, i] = 1 + log ν[T-1, i] = 1`, not `0` as claimed. -/
theorem C2_viterbi_first_state_bug :
    (hmmEx2.viterbi [0, 0]).getD 0 0 = 1
    ∧ argmax2
        (hmmEx2.emp 0 0 * (1/2) * ((hmmEx2.nuTable [0, 0]).getD 0 (1, 1)).1,
         hmmEx2.emp 1 0 * (1/2) * ((hmmEx2.nuTable [0, 0]).getD 0 (1, 1)).2) = 0
    ∧ (hmmEx2.nuTable [0, 0]).getLastD (0, 0) = (1, 1) := by
  decide

/-- Claim C3 (code bug, failing input): on the 2-state, 3-emission model
`hmmEx3` with the single observation `[0]` (`T = 1 ≤ 6`), the path returned
by the Viterbi decoder is `[1]`, whose joint probability
`π₀[x_0] * E[x_0, y_0] = 1/5` is strictly smaller than that of the path
`[0]` (`3/10`): the decoder does not maximize the joint probability.
(The comparison of products is equivalent to the claimed comparison of
joint log-probability sums, `log` being strictly monotone.) -/
theorem C3_viterbi_suboptimal :
    hmmEx3.viterbi [0] = [1]
    ∧ pathJoint hmmEx3 [0] (hmmEx3.viterbi [0]) < pathJoint hmmEx3 [0] [0] := by
  decide

/-- Claim C6 (counterexample): constructing `HMMBB(0.5, 0.5, [0.5, 0.2],
[1/3, 2/3])` succeeds even though the first emission row sums to `7/10 ≠ 1`:
emission probabilities are not validated at construction time. -/
theorem C6_counterexample_emissions_unchecked :
    (mkHMMBB (1/2) (1/2) [1/2, 1/5] [1/3, 2/3]).isOk = true
    ∧ ((1 : ℚ)/2 + 1/5 ≠ 1) := by
  decide

/-- Claim C7 (counterexample): with the global numpy random stream modelled
as an explicitly threaded list of uniforms, two consecutive `ffbs` calls on
identical inputs — the second starting from the stream state the first one
left behind, exactly as two successive calls behave in the source — return
different sampled paths: the sampler's output depends on hidden global
random state, not only on its explicit inputs. -/
theorem C7_counterexample_consecutive_runs_differ :
    (hmmEx1.ffbs [0, 1]
        ((hmmEx1.ffbs [0, 1] [1/100, 1/100, 99/100, 99/100]).2.2)).1 ≠
      (hmmEx1.ffbs [0, 1] [1/100, 1/100, 99/100, 99/100]).1 := by
  decide

/-- Claim C8: on the lecture graph, the converged cost function assigns
`J(A) = 8`, the extracted path is `A→C→F→G`, and its cost `8` equals the
cost of both optimal routes `A→C→F→G` and `A→D→F→G`. -/
theorem C8_bellman_known_graph :
    (DynamicProgrammingShortestPath.find_cost_function simpleG 20).map
        (fun J => (J.lookup "A").getD 0) = some 8
    ∧ (DynamicProgrammingShortestPath.find_cost_function simpleG 20).bind
        (fun J => DynamicProgrammingShortestPath.find_shortest_path simpleG J 10) =
      some ["A", "C", "F", "G"]
    ∧ simpleG.evaluate_path ["A", "C", "F", "G"] = 8
    ∧ simpleG.evaluate_path ["A", "D", "F", "G"] = 8 := by
  decide

/-- Claim C10 (counterexample): two acyclic graphs, every vertex reaching
the terminal, on which the dynamic-programming solver's path cost differs
from the brute-force minimum.  On `tinyCostG` (all costs below the `1e-10`
tolerance) the fixed-point loop stops after one pass with a non-converged
cost function and the extracted path costs `1e-10` while the brute-force
minimum is `2e-13`; on `hugeCostG` (action values above the `1e10` sentinel
initializing `min_cost`) the converged cost function is exact but the
greedy extraction keeps `actions[0]`, returning cost `3e10` against the
brute-force minimum `2e10`. -/
theorem C10_counterexample_tolerance_and_sentinel :
    ((DynamicProgrammingShortestPath.find_cost_function tinyCostG 20).bind
        (fun J => (DynamicProgrammingShortestPath.find_shortest_path tinyCostG J 10).map
          tinyCostG.evaluate_path) = some (1/10000000000))
    ∧ ((BruteForceShortestPath.traverse_paths tinyCostG 100).map
        (fun acc => listMin (acc.map Prod.snd)) = some (1/5000000000000))
    ∧ ((DynamicProgrammingShortestPath.find_cost_function hugeCostG 20).bind
        (fun J => (DynamicProgrammingShortestPath.find_shortest_path hugeCostG J 10).map
          hugeCostG.evaluate_path) = some 30000000000)
    ∧ ((BruteForceShortestPath.traverse_paths hugeCostG 100).map
        (fun acc => listMin (acc.map Prod.snd)) = some 20000000000) := by
  decide

/-- On `negCycleG`, `compare_J` between states of the invariant shape is the
maximum of the per-key absolute differences. -/
theorem negCycle_compare (a b gn : ℚ) :
    DynamicProgrammingShortestPath.compare_J negCycleG
      [("A", a), ("B", a), ("G", gn)] [("A", b), ("B", b), ("G", 0)] =
      max (max (max 0 |a - b|) |a - b|) |gn - 0| := by
  simp [DynamicProgrammingShortestPath.compare_J, ShortestPathProblem.keys,
    negCycleG, List.lookup]

/-- On `negCycleG`, the tolerance check passes (the loop keeps running)
whenever the `A`/`B` values of the two iterates differ by at least 1. -/
theorem negCycle_tol_lt (a b gn : ℚ) (h : 1 ≤ a - b) :
    DynamicProgrammingShortestPath.tol <
      DynamicProgrammingShortestPath.compare_J negCycleG
        [("A", a), ("B", a), ("G", gn)] [("A", b), ("B", b), ("G", 0)] := by
  rw [negCycle_compare]
  have h1 : DynamicProgrammingShortestPath.tol < |a - b| :=
    lt_of_lt_of_le (by norm_num [DynamicProgrammingShortestPath.tol])
      (le_trans h (le_abs_self _))
  exact lt_of_lt_of_le h1
    (le_trans (le_max_right (max 0 |a - b|) _) (le_max_left _ _))

/-- One Bellman pass on `negCycleG` decreases the `A`/`B` values by exactly 1
and keeps the terminal at 0. -/
theorem negCycle_pass (b : ℚ) :
    (negCycleG.keys.map fun node =>
      (node, DynamicProgrammingShortestPath.bellman_equation negCycleG node
        [("A", b), ("B", b), ("G", 0)])) =
      [("A", -1 + b), ("B", -1 + b), ("G", 0)] := by
  simp [ShortestPathProblem.keys, negCycleG,
    DynamicProgrammingShortestPath.bellman_equation,
    ShortestPathProblem.available_actions, ShortestPathProblem.is_at_end,
    ShortestPathProblem.edges, ShortestPathProblem.cost,
    DynamicProgrammingShortestPath.eval_action, listMin, List.lookup]

/-- On `negCycleG` the fixed-point loop, started from any pair of iterates of
the invariant shape whose `A`/`B` values differ by at least 1, never meets
the tolerance: it exhausts any fuel bound. -/
theorem negCycle_loop_none (n : ℕ) : ∀ (a b gn : ℚ), 1 ≤ a - b →
    DynamicProgrammingShortestPath.fcf_loop negCycleG n
      [("A", a), ("B", a), ("G", gn)] [("A", b), ("B", b), ("G", 0)] = none := by
  induction n with
  | zero =>
      intro a b gn h
      rw [DynamicProgrammingShortestPath.fcf_loop, if_pos (negCycle_tol_lt a b gn h)]
  | succ n ih =>
      intro a b gn h
      rw [DynamicProgrammingShortestPath.fcf_loop, if_pos (negCycle_tol_lt a b gn h),
        negCycle_pass]
      exact ih b (-1 + b) 0 (by linarith)

/-- `find_cost_function` on the negative-cycle graph is still running
whatever the fuel bound. -/
theorem negCycle_fcf_none (n : ℕ) :
    DynamicProgrammingShortestPath.find_cost_function negCycleG n = none := by
  show DynamicProgrammingShortestPath.fcf_loop negCycleG n
    [("A", 100), ("B", 100), ("G", 100)] [("A", 0), ("B", 0), ("G", 0)] = none
  exact negCycle_loop_none n 100 0 100 (by norm_num)

/-- Claim C5 (counterexample): on the negative-cost-cycle graph the
`find_cost_function` iteration is still running after 1000 passes, and there
is no iteration count at which it stops — a fortiori it never stops and
reports a non-convergence failure: the source's loop has no caller-supplied
maximum iteration count and no failure path at all. -/
theorem C5_counterexample_no_iteration_cap :
    (DynamicProgrammingShortestPath.find_cost_function negCycleG 1000 = none)
    ∧ ¬ ∃ n J, DynamicProgrammingShortestPath.find_cost_function negCycleG n =
        some J := by
  refine ⟨negCycle_fcf_none 1000, ?_⟩
  rintro ⟨n, J, h⟩
  rw [negCycle_fcf_none n] at h
  exact Option.noConfusion h

/-- Claim C5 (amended): when the tolerance check is never met — here, on a
graph with a negative-cost cycle — the Bellman fixed-point loop of
`find_cost_function` does not stop after any iteration count: the source
supplies no maximum-iteration parameter and no non-convergence failure
report, so the fuel-indexed model of the loop is still running (`none`) for
every fuel bound. -/
theorem C5_amended_nonconvergence_never_reported (n : ℕ) :
    DynamicProgrammingShortestPath.find_cost_function negCycleG n = none :=
  negCycle_fcf_none n

theorem scanl_getD_zero {α β : Type} (f : β → α → β) (b : β) (l : List α) (d : β) :
    (List.scanl f b l).getD 0 d = b := by
  cases l <;> rfl

theorem scanl_getD_succ {α β : Type} (f : β → α → β) (da : α) (d : β) :
    ∀ (l : List α) (b : β) (t : ℕ), t + 1 < (List.scanl f b l).length →
      (List.scanl f b l).getD (t + 1) d =
        f ((List.scanl f b l).getD t d) (l.getD t da) := by
  intro l
  induction l with
  | nil =>
      intro b t h
      simp [List.scanl] at h
  | cons a l ih =>
      intro b t h
      cases t with
      | zero =>
          simp [List.scanl_cons, scanl_getD_zero]
      | succ s =>
          have h' : s + 1 < (List.scanl f (f b a) l).length := by
            rw [List.scanl_cons] at h
            simpa using h
          rw [List.scanl_cons, List.singleton_append, List.getD_cons_succ,
            List.getD_cons_succ, List.getD_cons_succ, ih (f b a) s h']

theorem scanl_getLastD {α β : Type} (f : β → α → β) :
    ∀ (l : List α) (b d : β), (List.scanl f b l).getLastD d = l.foldl f b := by
  intro l
  induction l with
  | nil => intro b d; rfl
  | cons a l ih =>
      intro b d
      rw [List.scanl_cons, List.singleton_append, List.getLastD_cons,
        ih (f b a) b, List.foldl_cons]

theorem allSeqs_length (n : ℕ) : (allSeqs n).length = 2 ^ n := by
  induction n with
  | zero => rfl
  | succ n ih =>
      have h2 : (2 : ℕ) ^ (n + 1) = 2 ^ n * 2 := pow_succ 2 n
      simp [allSeqs, ih, h2]
      omega

theorem contSum_cons (m : HMMBB) (i : Fin 2) (yt : ℕ) (yr : List ℕ) :
    ((allSeqs (yt :: yr).length).map (contProb m i (yt :: yr))).sum =
      m.P i 0 * m.emp 0 yt * ((allSeqs yr.length).map (contProb m 0 yr)).sum +
      m.P i 1 * m.emp 1 yt * ((allSeqs yr.length).map (contProb m 1 yr)).sum := by
  show ((allSeqs (yr.length + 1)).map (contProb m i (yt :: yr))).sum = _
  rw [allSeqs, List.map_append, List.sum_append, List.map_map, List.map_map]
  have e0 : (contProb m i (yt :: yr)) ∘ (List.cons 0) =
      fun xs => m.P i 0 * m.emp 0 yt * contProb m 0 yr xs := by
    funext xs; rfl
  have e1 : (contProb m i (yt :: yr)) ∘ (List.cons 1) =
      fun xs => m.P i 1 * m.emp 1 yt * contProb m 1 yr xs := by
    funext xs; rfl
  rw [e0, e1, List.sum_map_mul_left, List.sum_map_mul_left]

theorem foldl_alphaStep_sum (m : HMMBB) :
    ∀ (yr : List ℕ) (a : ℚ × ℚ),
      sum2 (yr.foldl m.alphaStep a) =
        a.1 * ((allSeqs yr.length).map (contProb m 0 yr)).sum +
        a.2 * ((allSeqs yr.length).map (contProb m 1 yr)).sum := by
  intro yr
  induction yr with
  | nil =>
      intro a
      simp [allSeqs, contProb, sum2]
  | cons yt yr ih =>
      intro a
      rw [List.foldl_cons, ih (m.alphaStep a yt), contSum_cons, contSum_cons]
      simp only [HMMBB.alphaStep]
      ring

theorem totalProb_cons (m : HMMBB) (y0 : ℕ) (yr : List ℕ) :
    totalProb m (y0 :: yr) =
      (m.emp 0 y0 * (1/2)) * ((allSeqs yr.length).map (contProb m 0 yr)).sum +
      (m.emp 1 y0 * (1/2)) * ((allSeqs yr.length).map (contProb m 1 yr)).sum := by
  show ((allSeqs (yr.length + 1)).map (pathJoint m (y0 :: yr))).sum = _
  rw [allSeqs, List.map_append, List.sum_append, List.map_map, List.map_map]
  have e0 : (pathJoint m (y0 :: yr)) ∘ (List.cons 0) =
      fun xs => (1/2) * m.emp 0 y0 * contProb m 0 yr xs := by
    funext xs; rfl
  have e1 : (pathJoint m (y0 :: yr)) ∘ (List.cons 1) =
      fun xs => (1/2) * m.emp 1 y0 * contProb m 1 yr xs := by
    funext xs; rfl
  rw [e0, e1, List.sum_map_mul_left, List.sum_map_mul_left]
  ring

/-- Claim C4: for every nonempty observation sequence, the forward table
satisfies `alpha[0, i] = emp[i, y_0] * 0.5` and
`alpha[t, i] = emp[i, y_t] * Σ_j alpha[t-1, j] * P[j, i]` for `t ≥ 1`
(`alphaStep` is literally that formula), has one row per observation, and
the sum of its last row equals the total probability of the observations —
the sum of the joint probability over all `2^T` hidden state sequences
(`allSeqs` has exactly `2^T` elements) — exactly, in exact arithmetic. -/
theorem C4_forward_recursion_likelihood (m : HMMBB) (y : List ℕ) (h : y ≠ []) :
    (m.forward y).getD 0 (0, 0) =
      (m.emp 0 (y.getD 0 0) * (1/2), m.emp 1 (y.getD 0 0) * (1/2))
    ∧ (∀ t, t + 1 < (m.forward y).length →
        (m.forward y).getD (t + 1) (0, 0) =
          m.alphaStep ((m.forward y).getD t (0, 0)) (y.getD (t + 1) 0))
    ∧ (m.forward y).length = y.length
    ∧ (allSeqs y.length).length = 2 ^ y.length
    ∧ sum2 ((m.forward y).getLastD (0, 0)) = totalProb m y := by
  match y with
  | [] => exact absurd rfl h
  | y0 :: rest =>
      refine ⟨?_, ?_, ?_, allSeqs_length _, ?_⟩
      · rw [HMMBB.forward, scanl_getD_zero]
        rfl
      · intro t ht
        rw [HMMBB.forward] at ht ⊢
        rw [scanl_getD_succ m.alphaStep 0 (0, 0) rest _ t ht]
        rfl
      · rw [HMMBB.forward, List.length_scanl]
        rfl
      · rw [HMMBB.forward, scanl_getLastD, foldl_alphaStep_sum, totalProb_cons]

theorem forward_length (m : HMMBB) : ∀ (y : List ℕ), (m.forward y).length = y.length
  | [] => rfl
  | y0 :: rest => by
      rw [HMMBB.forward, List.length_scanl]
      rfl

theorem backward_length (m : HMMBB) : ∀ (y : List ℕ), (m.backward y).length = y.length
  | [] => rfl
  | [_] => rfl
  | _ :: y1 :: rest => by
      rw [HMMBB.backward]
      simpa using backward_length m (y1 :: rest)

theorem backward_getLastD (m : HMMBB) :
    ∀ (y : List ℕ), y ≠ [] → ∀ (d : ℚ × ℚ), (m.backward y).getLastD d = (1, 1)
  | [], h, _ => absurd rfl h
  | [_], _, _ => rfl
  | _ :: y1 :: rest, _, d => by
      rw [HMMBB.backward]
      show (m.betaStep ((m.backward (y1 :: rest)).headD (1, 1)) y1 ::
        m.backward (y1 :: rest)).getLastD d = (1, 1)
      rw [List.getLastD_cons]
      exact backward_getLastD m (y1 :: rest) (by simp) _

theorem map_getLastD {α β : Type} (f : α → β) (d : β) :
    ∀ (A : List α), A ≠ [] → ∀ (da : α), (A.map f).getLastD d = f (A.getLastD da)
  | [], h, _ => absurd rfl h
  | [_], _, _ => rfl
  | a :: a2 :: A, _, da => by
      rw [List.map_cons, List.getLastD_cons, List.getLastD_cons]
      exact map_getLastD f d (a2 :: A) (by simp) a

theorem zipWith_getLastD {α β γ : Type} (f : α → β → γ) :
    ∀ (A : List α) (B : List β), A.length = B.length → A ≠ [] →
      ∀ (d : γ) (da : α) (db : β),
        (List.zipWith f A B).getLastD d = f (A.getLastD da) (B.getLastD db)
  | [], _, _, h, _, _, _ => absurd rfl h
  | _ :: _, [], hlen, _, _, _, _ => by simp at hlen
  | [a], b :: B, hlen, _, d, da, db => by
      cases B with
      | nil => rfl
      | cons b2 B => simp at hlen
  | a :: a2 :: A, [b], hlen, _, d, da, db => by
      simp at hlen
  | a :: a2 :: A, b :: b2 :: B, hlen, _, d, da, db => by
      show (f a b :: List.zipWith f (a2 :: A) (b2 :: B)).getLastD d =
        f ((a2 :: A).getLastD a) ((b2 :: B).getLastD b)
      rw [List.getLastD_cons]
      exact zipWith_getLastD f (a2 :: A) (b2 :: B) (by simpa using hlen)
        (by simp) (f a b) a b

/-- Claim C9: for every nonempty observation sequence (with strictly
positive emission probabilities for the observed symbols, as the claim
assumes), the smoothed distribution at the final time step equals the
filtered distribution there exactly, because `beta[T-1, :] = (1, 1)`. -/
theorem C9_smoothed_eq_filtered_at_last (m : HMMBB) (y : List ℕ) (h : y ≠ [])
    (_hpos : ∀ yt ∈ y, 0 < m.emp 0 yt ∧ 0 < m.emp 1 yt) :
    (m.smooth_probabilities (m.forward y) (m.backward y)).getLastD (0, 0) =
      (m.filter_probabilities (m.forward y)).getLastD (0, 0) := by
  have hflen : (m.forward y).length = y.length := forward_length m y
  have hblen : (m.backward y).length = y.length := backward_length m y
  have hfne : m.forward y ≠ [] := by
    apply List.ne_nil_of_length_pos
    rw [hflen]
    exact List.length_pos.mpr h
  rw [HMMBB.smooth_probabilities,
    zipWith_getLastD smooth_row _ _ (hflen.trans hblen.symm) hfne (0, 0) (0, 0) (0, 0),
    backward_getLastD m y h _,
    HMMBB.filter_probabilities, map_getLastD normalize_row (0, 0) _ hfne (0, 0)]
  simp [smooth_row, normalize_row, mul_one]

/-- Claim C6 (amended): construction of an `HMMBB` succeeds exactly when
the transition parameters lie in `[0, 1]` (so the derived transition matrix
passes the Markov-chain constructor's nonnegativity check; its rows sum to 1
identically) and the two emission rows have equal length (so `row_stack`
accepts them).  Emission probabilities themselves — negative entries or rows
not summing to 1 — are never validated. -/
theorem C6_amended_validation_iff (p_bear p_bull : ℚ) (rb rl : List ℚ) :
    (mkHMMBB p_bear p_bull rb rl).isOk = true ↔
      (0 ≤ p_bear ∧ p_bear ≤ 1 ∧ 0 ≤ p_bull ∧ p_bull ≤ 1 ∧
        rb.length = rl.length) := by
  have hErr : ∀ s : String, (Except.error s : Except String HMMBB).isOk = false :=
    fun _ => rfl
  have hOk : ∀ hm : HMMBB, (Except.ok hm : Except String HMMBB).isOk = true :=
    fun _ => rfl
  unfold mkHMMBB
  by_cases h1 : p_bear < 0 ∨ 1 - p_bear < 0 ∨ p_bull < 0 ∨ 1 - p_bull < 0
  · rw [if_pos h1, hErr]
    constructor
    · intro hc
      exact Bool.noConfusion hc
    · rintro ⟨ha, hb, hc, hd, _⟩
      rcases h1 with hx | hx | hx | hx <;> linarith
  · rw [if_neg h1,
      if_neg (not_not_intro ⟨by ring, by ring⟩ :
        ¬¬(p_bear + (1 - p_bear) = 1 ∧ (1 - p_bull) + p_bull = 1))]
    by_cases h3 : rb.length ≠ rl.length
    · rw [if_pos h3, hErr]
      constructor
      · intro hc
        exact Bool.noConfusion hc
      · rintro ⟨_, _, _, _, hlen⟩
        exact absurd hlen h3
    · rw [if_neg h3, hOk]
      push_neg at h1 h3
      obtain ⟨ha, hb, hc, hd⟩ := h1
      exact ⟨fun _ => ⟨ha, by linarith, hc, by linarith, h3⟩, fun _ => rfl⟩

theorem take_succ_parts {α : Type} (n : ℕ) :
    ∀ (us vs : List α), us.take (n + 1) = vs.take (n + 1) →
      us.head? = vs.head? ∧ us.tail.take n = vs.tail.take n := by
  intro us vs h
  cases us <;> cases vs <;> simp_all [List.take]

theorem ffbsLoop_take (m : HMMBB) (betas : List (ℚ × ℚ)) :
    ∀ (t : ℕ) (probs : ℚ × ℚ) (us vs : List ℚ),
      us.take (t + 1) = vs.take (t + 1) →
      (m.ffbsLoop betas t probs us).1 = (m.ffbsLoop betas t probs vs).1 ∧
        (m.ffbsLoop betas t probs us).2.1 = (m.ffbsLoop betas t probs vs).2.1 := by
  intro t
  induction t with
  | zero =>
      intro probs us vs h
      obtain ⟨hh, -⟩ := take_succ_parts 0 us vs h
      constructor
      · show [draw2 probs (us.headD 0)] = [draw2 probs (vs.headD 0)]
        rw [List.headD_eq_head?_getD, List.headD_eq_head?_getD, hh]
      · rfl
  | succ t ih =>
      intro probs us vs h
      obtain ⟨hh, ht⟩ := take_succ_parts (t + 1) us vs h
      constructor
      · simp only [HMMBB.ffbsLoop, List.headD_eq_head?_getD, hh]
        rw [(ih _ us.tail vs.tail ht).1]
      · simp only [HMMBB.ffbsLoop, List.headD_eq_head?_getD, hh]
        rw [(ih _ us.tail vs.tail ht).2]

/-- Claim C7 (amended): `forward`, `backward`, `filter_probabilities`,
`smooth_probabilities` and `viterbi` are Lean functions of their explicit
inputs, hence trivially deterministic; `ffbs`, however, draws from the
global random stream (`DiscreteRV.draw` with no seed argument), so
reproducibility holds only relative to that stream: the sampled path and
the per-step weights depend on exactly the first `T` uniforms of the global
stream at call time — two runs whose stream states agree on those `T`
values return identical paths. -/
theorem C7_amended_ffbs_stream_dependence (m : HMMBB) (y : List ℕ) (us vs : List ℚ)
    (h : us.take y.length = vs.take y.length) :
    (m.ffbs y us).1 = (m.ffbs y vs).1 ∧
      (m.ffbs y us).2.1 = (m.ffbs y vs).2.1 := by
  cases y with
  | nil => exact ⟨rfl, rfl⟩
  | cons y0 rest =>
      have := ffbsLoop_take m (m.backward (y0 :: rest)) rest.length
        ((m.filter_probabilities (m.forward (y0 :: rest))).getLastD (0, 0))
        us vs (by simpa using h)
      simpa [HMMBB.ffbs] using this

/-- Claim C4 (witness): the likelihood identity of
`C4_forward_recursion_likelihood` instantiated on `hmmEx1` with
observations `[0, 1]`. -/
theorem C4_forward_witness :
    sum2 ((hmmEx1.forward [0, 1]).getLastD (0, 0)) = totalProb hmmEx1 [0, 1] :=
  (C4_forward_recursion_likelihood hmmEx1 [0, 1] (by decide)).2.2.2.2

/-- Claim C9 (witness): `C9_smoothed_eq_filtered_at_last` instantiated on
`hmmEx1` with observations `[0, 1]`. -/
theorem C9_smoothed_witness :
    (hmmEx1.smooth_probabilities (hmmEx1.forward [0, 1])
        (hmmEx1.backward [0, 1])).getLastD (0, 0) =
      (hmmEx1.filter_probabilities (hmmEx1.forward [0, 1])).getLastD (0, 0) :=
  C9_smoothed_eq_filtered_at_last hmmEx1 [0, 1] (by decide) (by decide)

/-- Claim C7 (witness): `C7_amended_ffbs_stream_dependence` instantiated on `hmmEx1`
with observations `[0, 1]` and two streams agreeing on their first two
uniforms. -/
theorem C7_amended_witness :
    (hmmEx1.ffbs [0, 1] [1/3, 1/3, 5/7]).1 =
      (hmmEx1.ffbs [0, 1] [1/3, 1/3, 9/10]).1 :=
  (C7_amended_ffbs_stream_dependence hmmEx1 [0, 1] [1/3, 1/3, 5/7] [1/3, 1/3, 9/10]
    (by decide)).1

theorem foldl_min_shift : ∀ (B : List ℚ) (x : ℚ), B ≠ [] →
    B.foldl min x = min x (listMin B)
  | [], _, h => absurd rfl h
  | [b], x, _ => rfl
  | b :: b2 :: B, x, _ => by
      show (b2 :: B).foldl min (min x b) = min x (listMin (b :: b2 :: B))
      rw [foldl_min_shift (b2 :: B) (min x b) (by simp),
        show listMin (b :: b2 :: B) = (b2 :: B).foldl min b from rfl,
        foldl_min_shift (b2 :: B) b (by simp), min_assoc]

theorem listMin_append : ∀ (A B : List ℚ), A ≠ [] → B ≠ [] →
    listMin (A ++ B) = min (listMin A) (listMin B)
  | [], _, h, _ => absurd rfl h
  | a :: A, B, _, hB => by
      show listMin (a :: (A ++ B)) = min (listMin (a :: A)) (listMin B)
      show (A ++ B).foldl min a = _
      rw [List.foldl_append, foldl_min_shift B _ hB]
      congr 1

theorem listMin_le_mem : ∀ (l : List ℚ), ∀ x ∈ l, listMin l ≤ x := by
  intro l
  induction l with
  | nil => intro x hx; cases hx
  | cons a l ih =>
      intro x hx
      cases l with
      | nil =>
          have hxa : x = a := by simpa using hx
          subst hxa
          exact le_refl _
      | cons b l2 =>
          have h2 : listMin (a :: b :: l2) = min (listMin [a]) (listMin (b :: l2)) := by
            simpa using listMin_append [a] (b :: l2) (by simp) (by simp)
          rw [h2]
          rcases List.mem_cons.mp hx with h | h
          · subst h
            exact min_le_left _ _
          · exact le_trans (min_le_right _ _) (ih x h)

theorem listMin_mem : ∀ (l : List ℚ), l ≠ [] → listMin l ∈ l
  | [], h => absurd rfl h
  | [a], _ => by simp [listMin]
  | a :: b :: l, _ => by
      have h2 : listMin (a :: b :: l) = min (listMin [a]) (listMin (b :: l)) := by
        simpa using listMin_append [a] (b :: l) (by simp) (by simp)
      rw [h2]
      rcases le_total (listMin [a]) (listMin (b :: l)) with h | h
      · rw [min_eq_left h]
        simp [listMin]
      · rw [min_eq_right h]
        exact List.mem_cons_of_mem a (listMin_mem (b :: l) (by simp))

theorem listMin_reverse (l : List ℚ) (h : l ≠ []) :
    listMin l.reverse = listMin l := by
  have hr : l.reverse ≠ [] := by simpa using h
  apply le_antisymm
  · exact listMin_le_mem _ _ (List.mem_reverse.mpr (listMin_mem l h))
  · exact listMin_le_mem _ _ (List.mem_reverse.mp (listMin_mem _ hr))

theorem listMin_map_add {α : Type} (F : α → ℚ) (c : ℚ) :
    ∀ (l : List α), l ≠ [] →
      listMin (l.map fun x => c + F x) = c + listMin (l.map F)
  | [], h => absurd rfl h
  | [a], _ => rfl
  | a :: b :: l, _ => by
      show listMin ((fun x => c + F x) a :: (b :: l).map fun x => c + F x) = _
      rw [show ((fun x => c + F x) a :: (b :: l).map fun x => c + F x) =
        [(fun x => c + F x) a] ++ (b :: l).map (fun x => c + F x) from rfl,
        listMin_append _ _ (by simp) (by simp),
        listMin_map_add F c (b :: l) (by simp)]
      show min (c + F a) (c + listMin ((b :: l).map F)) = _
      rw [min_add_add_left,
        show ((a :: b :: l).map F) = [F a] ++ (b :: l).map F from rfl,
        listMin_append _ _ (by simp) (by simp)]
      rfl

theorem listMin_flatMap {α : Type} (f : α → List ℚ) :
    ∀ (l : List α), l ≠ [] → (∀ w ∈ l, f w ≠ []) →
      listMin (l.flatMap f) = listMin (l.map fun w => listMin (f w))
  | [], h, _ => absurd rfl h
  | [a], _, hne => by
      show listMin ([a].flatMap f) = listMin [listMin (f a)]
      rw [show ([a].flatMap f) = f a ++ [] from rfl, List.append_nil]
      rfl
  | a :: b :: l, _, hne => by
      rw [show (a :: b :: l).flatMap f = f a ++ (b :: l).flatMap f from rfl,
        listMin_append _ _ (hne a (by simp)) ?_,
        listMin_flatMap f (b :: l) (by simp) (fun w hw => hne w (by simp [hw])),
        show ((a :: b :: l).map fun w => listMin (f w)) =
          [listMin (f a)] ++ ((b :: l).map fun w => listMin (f w)) from rfl,
        listMin_append _ _ (by simp) (by simp)]
      · rfl
      · have hb : f b ≠ [] := hne b (by simp)
        intro hcon
        rw [show (b :: l).flatMap f = f b ++ l.flatMap f from rfl] at hcon
        rcases List.append_eq_nil.mp hcon with ⟨h1, -⟩
        exact absurd h1 hb

theorem is_at_end_true_iff {V : Type} [DecidableEq V] (g : ShortestPathProblem V)
    (v : V) : g.is_at_end v = true ↔ v = g.terminal := by
  simp [ShortestPathProblem.is_at_end]

theorem is_at_end_false_iff {V : Type} [DecidableEq V] (g : ShortestPathProblem V)
    (v : V) : g.is_at_end v = false ↔ v ≠ g.terminal := by
  simp [ShortestPathProblem.is_at_end]

theorem allPathsFrom_terminal {V : Type} [DecidableEq V] (g : ShortestPathProblem V)
    (v : V) (hv : v = g.terminal) : ∀ n, allPathsFrom g n v = [[v]] := by
  intro n
  cases n with
  | zero => rw [allPathsFrom, if_pos ((is_at_end_true_iff g v).mpr hv)]
  | succ n => rw [allPathsFrom, if_pos ((is_at_end_true_iff g v).mpr hv)]

theorem allPathsFrom_no_actions {V : Type} [DecidableEq V] (g : ShortestPathProblem V)
    (v : V) (hv : v ≠ g.terminal) (hact : g.available_actions v = []) :
    ∀ n, allPathsFrom g n v = [] := by
  intro n
  cases n with
  | zero => rw [allPathsFrom, if_neg (by simpa using (is_at_end_false_iff g v).mpr hv)]
  | succ n =>
      rw [allPathsFrom, if_neg (by simpa using (is_at_end_false_iff g v).mpr hv), hact]
      rfl

theorem reachesIn_no_actions {V : Type} [DecidableEq V] (g : ShortestPathProblem V)
    (v : V) (hv : v ≠ g.terminal) (hact : g.available_actions v = []) :
    ∀ n, reachesIn g n v = false := by
  intro n
  cases n with
  | zero =>
      rw [reachesIn]
      exact (is_at_end_false_iff g v).mpr hv
  | succ n =>
      rw [reachesIn, hact]
      simp [(is_at_end_false_iff g v).mpr hv]

theorem reachesIn_mono {V : Type} [DecidableEq V] (g : ShortestPathProblem V) :
    ∀ (n m : ℕ), n ≤ m → ∀ (v : V), reachesIn g n v = true → reachesIn g m v = true := by
  intro n
  induction n with
  | zero =>
      intro m _ v h
      rw [reachesIn] at h
      cases m with
      | zero => exact h
      | succ m => rw [reachesIn, h]; rfl
  | succ n ih =>
      intro m hm v h
      cases m with
      | zero => omega
      | succ m =>
          rw [reachesIn] at h ⊢
          rcases Bool.or_eq_true_iff.mp h with h | h
          · rw [h]; rfl
          · rcases List.any_eq_true.mp h with ⟨w, hw, hrw⟩
            have := ih m (by omega) w hrw
            apply Bool.or_eq_true_iff.mpr
            exact Or.inr (List.any_eq_true.mpr ⟨w, hw, this⟩)

theorem allPathsFrom_head {V : Type} [DecidableEq V] (g : ShortestPathProblem V) :
    ∀ (n : ℕ) (v : V) (q : List V), q ∈ allPathsFrom g n v → ∃ r, q = v :: r := by
  intro n
  cases n with
  | zero =>
      intro v q hq
      rw [allPathsFrom] at hq
      split_ifs at hq with h
      · exact ⟨[], by simpa using hq⟩
      · cases hq
  | succ n =>
      intro v q hq
      rw [allPathsFrom] at hq
      split_ifs at hq with h
      · exact ⟨[], by simpa using hq⟩
      · rcases List.mem_flatMap.mp hq with ⟨w, -, hmem⟩
        rcases List.mem_map.mp hmem with ⟨r, -, hr⟩
        exact ⟨r, hr.symm⟩

theorem flatMap_congr_mem {α β : Type} :
    ∀ (l : List α) (f f' : α → List β), (∀ x ∈ l, f x = f' x) →
      l.flatMap f = l.flatMap f'
  | [], _, _, _ => rfl
  | a :: l, f, f', h => by
      rw [show (a :: l).flatMap f = f a ++ l.flatMap f from rfl,
        show (a :: l).flatMap f' = f' a ++ l.flatMap f' from rfl,
        h a (by simp), flatMap_congr_mem l f f' (fun x hx => h x (by simp [hx]))]

theorem actions_ne_nil_of_reaches {V : Type} [DecidableEq V]
    (g : ShortestPathProblem V) (N : ℕ) (v : V) (hvt : v ≠ g.terminal)
    (hreach : reachesIn g N v = true) : g.available_actions v ≠ [] := by
  intro hact
  rw [reachesIn_no_actions g v hvt hact N] at hreach
  cases hreach

theorem rank_pos_of_actions {V : Type} [DecidableEq V]
    (g : ShortestPathProblem V) (rank : V → ℕ)
    (hrank : ∀ v ∈ g.keys, ∀ w ∈ g.available_actions v, rank w < rank v)
    (v : V) (hv : v ∈ g.keys) (hact : g.available_actions v ≠ []) :
    1 ≤ rank v := by
  rcases List.exists_mem_of_ne_nil _ hact with ⟨w, hw⟩
  have := hrank v hv w hw
  omega

theorem allPathsFrom_stable {V : Type} [DecidableEq V]
    (g : ShortestPathProblem V) (rank : V → ℕ)
    (hrank : ∀ v ∈ g.keys, ∀ w ∈ g.available_actions v, rank w < rank v)
    (hclosed : ∀ v ∈ g.keys, ∀ w ∈ g.available_actions v, w ∈ g.keys) :
    ∀ (r : ℕ) (v : V), v ∈ g.keys → rank v < r →
      ∀ m n, rank v ≤ m → rank v ≤ n →
        allPathsFrom g m v = allPathsFrom g n v := by
  intro r
  induction r with
  | zero =>
      intro v _ h
      exact absurd h (Nat.not_lt_zero _)
  | succ r ih =>
      intro v hv hvr m n hm hn
      by_cases hterm : v = g.terminal
      · rw [allPathsFrom_terminal g v hterm m, allPathsFrom_terminal g v hterm n]
      · by_cases hact : g.available_actions v = []
        · rw [allPathsFrom_no_actions g v hterm hact m,
            allPathsFrom_no_actions g v hterm hact n]
        · have h1 : 1 ≤ rank v := rank_pos_of_actions g rank hrank v hv hact
          cases m with
          | zero => omega
          | succ m' =>
              cases n with
              | zero => omega
              | succ n' =>
                  rw [allPathsFrom, allPathsFrom,
                    if_neg (by simpa using (is_at_end_false_iff g v).mpr hterm),
                    if_neg (by simpa using (is_at_end_false_iff g v).mpr hterm)]
                  apply flatMap_congr_mem
                  intro w hw
                  have hwa : w ∈ g.available_actions v := List.mem_reverse.mp hw
                  have hwr : rank w < rank v := hrank v hv w hwa
                  rw [ih w (hclosed v hv w hwa) (by omega) m' n' (by omega) (by omega)]

theorem allPathsFrom_ne_nil {V : Type} [DecidableEq V]
    (g : ShortestPathProblem V) (rank : V → ℕ) (N : ℕ)
    (hrank : ∀ v ∈ g.keys, ∀ w ∈ g.available_actions v, rank w < rank v)
    (hclosed : ∀ v ∈ g.keys, ∀ w ∈ g.available_actions v, w ∈ g.keys)
    (hreach : ∀ v ∈ g.keys, reachesIn g N v = true) :
    ∀ (r : ℕ) (v : V), v ∈ g.keys → rank v < r →
      ∀ n, rank v ≤ n → allPathsFrom g n v ≠ [] := by
  intro r
  induction r with
  | zero =>
      intro v _ h
      exact absurd h (Nat.not_lt_zero _)
  | succ r ih =>
      intro v hv hvr n hn
      by_cases hterm : v = g.terminal
      · rw [allPathsFrom_terminal g v hterm n]
        simp
      · have hact : g.available_actions v ≠ [] :=
          actions_ne_nil_of_reaches g N v hterm (hreach v hv)
        have h1 : 1 ≤ rank v := rank_pos_of_actions g rank hrank v hv hact
        cases n with
        | zero => omega
        | succ n' =>
            rcases List.exists_mem_of_ne_nil _ hact with ⟨w, hw⟩
            have hwk : w ∈ g.keys := hclosed v hv w hw
            have hwr : rank w < rank v := hrank v hv w hw
            have hwne : allPathsFrom g n' w ≠ [] :=
              ih w hwk (by omega) n' (by omega)
            rcases List.exists_mem_of_ne_nil _ hwne with ⟨q, hq⟩
            apply List.ne_nil_of_mem (a := v :: q)
            rw [allPathsFrom,
              if_neg (by simpa using (is_at_end_false_iff g v).mpr hterm)]
            exact List.mem_flatMap.mpr
              ⟨w, List.mem_reverse.mpr hw, List.mem_map.mpr ⟨q, hq, rfl⟩⟩

theorem evaluate_path_cons_cons {V : Type} [DecidableEq V]
    (g : ShortestPathProblem V) (v w : V) (t : List V) :
    g.evaluate_path (v :: w :: t) = g.cost v w + g.evaluate_path (w :: t) := rfl

theorem bellman_value {V : Type} [DecidableEq V]
    (g : ShortestPathProblem V) (rank : V → ℕ) (N : ℕ) (J : List (V × ℚ))
    (hrank : ∀ v ∈ g.keys, ∀ w ∈ g.available_actions v, rank w < rank v)
    (hclosed : ∀ v ∈ g.keys, ∀ w ∈ g.available_actions v, w ∈ g.keys)
    (hreach : ∀ v ∈ g.keys, reachesIn g N v = true)
    (hfix : ∀ v ∈ g.keys, (J.lookup v).getD 0 =
      DynamicProgrammingShortestPath.bellman_equation g v J) :
    ∀ (r : ℕ) (v : V), v ∈ g.keys → rank v < r →
      ∀ n, rank v ≤ n →
        (J.lookup v).getD 0 = listMin ((allPathsFrom g n v).map g.evaluate_path) := by
  intro r
  induction r with
  | zero =>
      intro v _ h
      exact absurd h (Nat.not_lt_zero _)
  | succ r ih =>
      intro v hv hvr n hn
      by_cases hterm : v = g.terminal
      · rw [allPathsFrom_terminal g v hterm n, hfix v hv,
          DynamicProgrammingShortestPath.bellman_equation, if_pos hterm]
        rfl
      · have hact : g.available_actions v ≠ [] :=
          actions_ne_nil_of_reaches g N v hterm (hreach v hv)
        have h1 : 1 ≤ rank v := rank_pos_of_actions g rank hrank v hv hact
        cases n with
        | zero => omega
        | succ n' =>
            rw [allPathsFrom,
              if_neg (by simpa using (is_at_end_false_iff g v).mpr hterm),
              List.map_flatMap]
            have hpiece : ∀ w ∈ (g.available_actions v).reverse,
                (List.map g.evaluate_path
                  ((allPathsFrom g n' w).map fun q => v :: q)) =
                  (allPathsFrom g n' w).map
                    (fun q => g.cost v w + g.evaluate_path q) := by
              intro w hw
              rw [List.map_map]
              apply List.map_congr_left
              intro q hq
              rcases allPathsFrom_head g n' w q hq with ⟨t, rfl⟩
              exact evaluate_path_cons_cons g v w t
            rw [flatMap_congr_mem _ _ _ hpiece]
            have hnonempty : ∀ w ∈ (g.available_actions v).reverse,
                (allPathsFrom g n' w).map
                  (fun q => g.cost v w + g.evaluate_path q) ≠ [] := by
              intro w hw
              have hwa := List.mem_reverse.mp hw
              have := allPathsFrom_ne_nil g rank N hrank hclosed hreach r w
                (hclosed v hv w hwa) (by have := hrank v hv w hwa; omega) n'
                (by have := hrank v hv w hwa; omega)
              simpa using this
            rw [listMin_flatMap _ _ (by simpa using hact) hnonempty]
            have hmins : ∀ w ∈ (g.available_actions v).reverse,
                listMin ((allPathsFrom g n' w).map
                  (fun q => g.cost v w + g.evaluate_path q)) =
                  DynamicProgrammingShortestPath.eval_action g v w J := by
              intro w hw
              have hwa := List.mem_reverse.mp hw
              have hwk := hclosed v hv w hwa
              have hwr := hrank v hv w hwa
              rw [listMin_map_add g.evaluate_path (g.cost v w) _
                  (allPathsFrom_ne_nil g rank N hrank hclosed hreach r w hwk
                    (by omega) n' (by omega)),
                ← ih w hwk (by omega) n' (by omega)]
              rfl
            rw [List.map_congr_left hmins, List.map_reverse,
              listMin_reverse _ (by simpa using hact), hfix v hv,
              DynamicProgrammingShortestPath.bellman_equation, if_neg hterm]


theorem fold_step_snd {V : Type} [DecidableEq V] (F : V → ℚ) :
    ∀ (l : List V) (x : V) (m : ℚ),
      (l.foldl (fun p w => if F w < p.2 then (w, F w) else p) (x, m)).2 =
        (l.map F).foldl min m
  | [], _, _ => rfl
  | w :: l, x, m => by
      show (l.foldl _ (if F w < m then (w, F w) else (x, m))).2 =
        (l.map F).foldl min (min m (F w))
      by_cases h : F w < m
      · rw [if_pos h, fold_step_snd F l w (F w),
          min_eq_right (le_of_lt h)]
      · rw [if_neg h, fold_step_snd F l x m,
          min_eq_left (not_lt.mp h)]

theorem fold_step_fst_val {V : Type} [DecidableEq V] (F : V → ℚ) :
    ∀ (l : List V) (x : V) (m : ℚ), F x = m →
      F (l.foldl (fun p w => if F w < p.2 then (w, F w) else p) (x, m)).1 =
        (l.foldl (fun p w => if F w < p.2 then (w, F w) else p) (x, m)).2
  | [], _, _, h => h
  | w :: l, x, m, h => by
      show F ((l.foldl _ (if F w < m then (w, F w) else (x, m)))).1 =
        ((l.foldl _ (if F w < m then (w, F w) else (x, m)))).2
      by_cases hc : F w < m
      · rw [if_pos hc]
        exact fold_step_fst_val F l w (F w) rfl
      · rw [if_neg hc]
        exact fold_step_fst_val F l x m h

theorem fold_step_fst_improve {V : Type} [DecidableEq V] (F : V → ℚ) :
    ∀ (l : List V) (x : V) (m : ℚ), (∃ w ∈ l, F w < m) →
      F (l.foldl (fun p w => if F w < p.2 then (w, F w) else p) (x, m)).1 =
        (l.foldl (fun p w => if F w < p.2 then (w, F w) else p) (x, m)).2
  | [], _, _, h => by
      rcases h with ⟨w, hw, -⟩
      cases hw
  | w :: l, x, m, h => by
      show F ((l.foldl _ (if F w < m then (w, F w) else (x, m)))).1 =
        ((l.foldl _ (if F w < m then (w, F w) else (x, m)))).2
      by_cases hc : F w < m
      · rw [if_pos hc]
        exact fold_step_fst_val F l w (F w) rfl
      · rw [if_neg hc]
        rcases h with ⟨u, hu, hu2⟩
        rcases List.mem_cons.mp hu with rfl | hu'
        · exact absurd hu2 hc
        · exact fold_step_fst_improve F l x m ⟨u, hu', hu2⟩

theorem fold_step_fst_mem {V : Type} [DecidableEq V] (F : V → ℚ) :
    ∀ (l : List V) (x : V) (m : ℚ),
      (l.foldl (fun p w => if F w < p.2 then (w, F w) else p) (x, m)).1 = x ∨
        (l.foldl (fun p w => if F w < p.2 then (w, F w) else p) (x, m)).1 ∈ l
  | [], _, _ => Or.inl rfl
  | w :: l, x, m => by
      show (l.foldl _ (if F w < m then (w, F w) else (x, m))).1 = x ∨
        (l.foldl _ (if F w < m then (w, F w) else (x, m))).1 ∈ w :: l
      by_cases hc : F w < m
      · rw [if_pos hc]
        rcases fold_step_fst_mem F l w (F w) with h | h
        · exact Or.inr (by rw [h]; exact List.mem_cons_self _ _)
        · exact Or.inr (List.mem_cons_of_mem _ h)
      · rw [if_neg hc]
        rcases fold_step_fst_mem F l x m with h | h
        · exact Or.inl h
        · exact Or.inr (List.mem_cons_of_mem _ h)

theorem choose_action_spec {V : Type} [DecidableEq V] (g : ShortestPathProblem V)
    (J : List (V × ℚ)) (v a0 : V) (rest : List V)
    (hb : ∀ w ∈ a0 :: rest,
      DynamicProgrammingShortestPath.eval_action g v w J < 10000000000) :
    DynamicProgrammingShortestPath.choose_action g v J a0 (a0 :: rest) ∈ a0 :: rest ∧
      DynamicProgrammingShortestPath.eval_action g v
          (DynamicProgrammingShortestPath.choose_action g v J a0 (a0 :: rest)) J =
        listMin ((a0 :: rest).map fun w =>
          DynamicProgrammingShortestPath.eval_action g v w J) := by
  have ha0 : DynamicProgrammingShortestPath.eval_action g v a0 J < 10000000000 :=
    hb a0 (List.mem_cons_self _ _)
  constructor
  · rcases fold_step_fst_mem
      (fun w => DynamicProgrammingShortestPath.eval_action g v w J)
      (a0 :: rest) a0 10000000000 with h | h
    · rw [DynamicProgrammingShortestPath.choose_action, h]
      exact List.mem_cons_self _ _
    · exact h
  · have h1 := fold_step_fst_improve
      (fun w => DynamicProgrammingShortestPath.eval_action g v w J)
      (a0 :: rest) a0 10000000000 ⟨a0, List.mem_cons_self _ _, ha0⟩
    simp only [] at h1
    have h2 := fold_step_snd
      (fun w => DynamicProgrammingShortestPath.eval_action g v w J)
      (a0 :: rest) a0 10000000000
    have h3 : ((a0 :: rest).map fun w =>
        DynamicProgrammingShortestPath.eval_action g v w J).foldl min 10000000000 =
        min 10000000000 (listMin ((a0 :: rest).map fun w =>
          DynamicProgrammingShortestPath.eval_action g v w J)) :=
      foldl_min_shift _ _ (by simp)
    have h4 : listMin ((a0 :: rest).map fun w =>
        DynamicProgrammingShortestPath.eval_action g v w J) ≤
        DynamicProgrammingShortestPath.eval_action g v a0 J :=
      listMin_le_mem _ _ (List.mem_map.mpr ⟨a0, List.mem_cons_self _ _, rfl⟩)
    rw [DynamicProgrammingShortestPath.choose_action, h1, h2, h3,
      min_eq_right (le_of_lt (lt_of_le_of_lt h4 ha0))]

theorem fsp_from {V : Type} [DecidableEq V]
    (g : ShortestPathProblem V) (rank : V → ℕ) (N : ℕ) (J : List (V × ℚ))
    (hrank : ∀ v ∈ g.keys, ∀ w ∈ g.available_actions v, rank w < rank v)
    (hclosed : ∀ v ∈ g.keys, ∀ w ∈ g.available_actions v, w ∈ g.keys)
    (hreach : ∀ v ∈ g.keys, reachesIn g N v = true)
    (hfix : ∀ v ∈ g.keys, (J.lookup v).getD 0 =
      DynamicProgrammingShortestPath.bellman_equation g v J)
    (hsent : ∀ v ∈ g.keys, ∀ w ∈ g.available_actions v,
      DynamicProgrammingShortestPath.eval_action g v w J < 10000000000) :
    ∀ (r : ℕ) (v : V), v ∈ g.keys → rank v < r →
      ∃ q, q.head? = some v ∧
        g.evaluate_path q = (J.lookup v).getD 0 ∧
        ∀ (pre : List V) (fuel : ℕ), rank v < fuel →
          DynamicProgrammingShortestPath.fsp_loop g J fuel v (pre ++ [v]) =
            some (pre ++ q) := by
  intro r
  induction r with
  | zero =>
      intro v _ h
      exact absurd h (Nat.not_lt_zero _)
  | succ r ih =>
      intro v hv hvr
      by_cases hterm : v = g.terminal
      · refine ⟨[v], rfl, ?_, ?_⟩
        · rw [hfix v hv, DynamicProgrammingShortestPath.bellman_equation,
            if_pos hterm]
          rfl
        · intro pre fuel hfuel
          cases fuel with
          | zero =>
              rw [DynamicProgrammingShortestPath.fsp_loop,
                if_pos (by simp [ShortestPathProblem.is_at_end, hterm])]
          | succ f =>
              rw [DynamicProgrammingShortestPath.fsp_loop,
                if_pos (by simp [ShortestPathProblem.is_at_end, hterm])]
      · have hact : g.available_actions v ≠ [] :=
          actions_ne_nil_of_reaches g N v hterm (hreach v hv)
        rcases hA : g.available_actions v with - | ⟨a0, rest⟩
        · exact absurd hA hact
        · have hsentv : ∀ w ∈ a0 :: rest,
              DynamicProgrammingShortestPath.eval_action g v w J < 10000000000 := by
            intro w hw
            exact hsent v hv w (hA ▸ hw)
          obtain ⟨hmem, hval⟩ := choose_action_spec g J v a0 rest hsentv
          set w0 := DynamicProgrammingShortestPath.choose_action g v J a0 (a0 :: rest)
            with hw0def
          have hw_act : w0 ∈ g.available_actions v := hA ▸ hmem
          have hwk : w0 ∈ g.keys := hclosed v hv w0 hw_act
          have hwr : rank w0 < rank v := hrank v hv w0 hw_act
          have hJv : (J.lookup v).getD 0 =
              DynamicProgrammingShortestPath.eval_action g v w0 J := by
            rw [hval, hfix v hv,
              DynamicProgrammingShortestPath.bellman_equation, if_neg hterm, hA]
          rcases ih w0 hwk (by omega) with ⟨qw, hqhead, hqeval, hqloop⟩
          rcases qw with - | ⟨w1, qt⟩
          · cases hqhead
          · have hw1 : w1 = w0 := by injection hqhead
            refine ⟨v :: w1 :: qt, rfl, ?_, ?_⟩
            · rw [evaluate_path_cons_cons, hqeval, hw1, hJv]
              rfl
            · intro pre fuel hfuel
              cases fuel with
              | zero => omega
              | succ f =>
                  rw [DynamicProgrammingShortestPath.fsp_loop,
                    if_neg (by simp [ShortestPathProblem.is_at_end, hterm]), hA]
                  show DynamicProgrammingShortestPath.fsp_loop g J f w0
                    ((pre ++ [v]) ++ [w0]) = some (pre ++ v :: w1 :: qt)
                  have := hqloop (pre ++ [v]) f (by omega)
                  rw [hw1, List.append_assoc] at this ⊢
                  simpa using this

theorem pendingRuns_term {V : Type} [DecidableEq V] (g : ShortestPathProblem V)
    (N : ℕ) (p : List V) (v : V) (hv : v = g.terminal) (S : List V) :
    pendingRuns g N p v S = [(p ++ [v], g.evaluate_path (p ++ [v]))] := by
  rw [pendingRuns, if_pos ((is_at_end_true_iff g v).mpr hv)]

theorem pendingRuns_nil_nonterm {V : Type} [DecidableEq V]
    (g : ShortestPathProblem V) (N : ℕ) (p : List V) (v : V)
    (hv : v ≠ g.terminal) :
    pendingRuns g N p v [] = [] := by
  rw [pendingRuns, if_neg (by simp [ShortestPathProblem.is_at_end, hv])]
  rfl

theorem pendingRuns_concat {V : Type} [DecidableEq V] (g : ShortestPathProblem V)
    (N : ℕ) (p : List V) (v : V) (hv : v ≠ g.terminal) (S : List V) (w : V) :
    pendingRuns g N p v (S ++ [w]) =
      ((allPathsFrom g N w).map fun q =>
        (p ++ [v] ++ q, g.evaluate_path (p ++ [v] ++ q))) ++
        pendingRuns g N p v S := by
  rw [pendingRuns, pendingRuns, if_neg (by simp [ShortestPathProblem.is_at_end, hv]),
    if_neg (by simp [ShortestPathProblem.is_at_end, hv]), List.reverse_concat]
  rfl

theorem pendingRuns_full {V : Type} [DecidableEq V] (g : ShortestPathProblem V)
    (N : ℕ) (p : List V) (v : V) :
    pendingRuns g N p v (g.available_actions v) =
      (allPathsFrom g (N + 1) v).map fun q => (p ++ q, g.evaluate_path (p ++ q)) := by
  by_cases hv : v = g.terminal
  · rw [pendingRuns_term g N p v hv, allPathsFrom_terminal g v hv]
    rfl
  · rw [pendingRuns, if_neg (by simp [ShortestPathProblem.is_at_end, hv]),
      allPathsFrom, if_neg (by simp [ShortestPathProblem.is_at_end, hv]),
      List.map_flatMap]
    apply flatMap_congr_mem
    intro w hw
    rw [List.map_map]
    apply List.map_congr_left
    intro q hq
    show (p ++ [v] ++ q, g.evaluate_path (p ++ [v] ++ q)) =
      (p ++ v :: q, g.evaluate_path (p ++ v :: q))
    rw [List.append_cons p v q]

theorem traverse_run {V : Type} [DecidableEq V] (g : ShortestPathProblem V)
    (rank : V → ℕ) (N : ℕ)
    (hrank : ∀ v ∈ g.keys, ∀ w ∈ g.available_actions v, rank w < rank v)
    (hclosed : ∀ v ∈ g.keys, ∀ w ∈ g.available_actions v, w ∈ g.keys)
    (hN : ∀ v ∈ g.keys, rank v ≤ N) :
    ∀ (r : ℕ) (v : V), v ∈ g.keys → rank v < r →
    ∀ (S : List V), (∀ w ∈ S, w ∈ g.available_actions v) →
    ∀ (p : List V), (∀ u ∈ p, u ∈ g.keys) → (∀ u ∈ p, rank v < rank u) →
      (v = g.terminal → p ≠ []) →
    ∀ (A : V → List V),
      (∀ u ∈ g.keys, u ∉ p → u ≠ v → A u = g.available_actions u) →
      A v = S →
    ∃ k, ∀ (acc : List (List V × ℚ)) (fuel : ℕ),
      BruteForceShortestPath.traverse_loop g (k + fuel) v (p ++ [v]) A acc =
        (match p.getLast? with
        | some u =>
            BruteForceShortestPath.traverse_loop g fuel u p
              (Function.update A v (g.available_actions v))
              (acc ++ pendingRuns g N p v S)
        | none => some (acc ++ pendingRuns g N p v S)) := by
  intro r
  induction r with
  | zero => intro v _ h; exact absurd h (Nat.not_lt_zero _)
  | succ r ih =>
      intro v hv hvr S
      induction S using List.reverseRecOn with
      | nil =>
          intro hS p hp hpgt hvterm A hA hAv
          refine ⟨1, ?_⟩
          intro acc fuel
          have h1 : 1 + fuel = fuel + 1 := by omega
          rw [h1]
          by_cases hterm : v = g.terminal
          · have hpne : p ≠ [] := hvterm hterm
            rcases hu : p.getLast? with - | u
            · exact absurd (List.getLast?_eq_none_iff.mp hu) hpne
            · have hsb : BruteForceShortestPath.step_back_path (p ++ [v]) =
                  some (u, p) := by
                rw [BruteForceShortestPath.step_back_path, List.dropLast_concat, hu]
              have hup : Function.update A v (g.available_actions v) = A := by
                have hA0 : g.available_actions v = A v := by
                  rw [hAv, ShortestPathProblem.available_actions,
                    if_pos ((is_at_end_true_iff g v).mpr hterm)]
                rw [hA0, Function.update_eq_self]
              simp only [BruteForceShortestPath.traverse_loop]
              rw [if_neg (show ¬((p ++ [v]).isEmpty = true) by simp),
                if_pos ((is_at_end_true_iff g v).mpr hterm), hsb,
                pendingRuns_term g N p v hterm, hup]
          · rcases hu : p.getLast? with - | u
            · -- p = [] : the loop breaks and returns acc
              have hpe : p = [] := List.getLast?_eq_none_iff.mp hu
              subst hpe
              simp only [BruteForceShortestPath.traverse_loop]
              rw [if_neg (show ¬(([] ++ [v] : List V).isEmpty = true) by simp),
                if_neg (show ¬(g.is_at_end v = true) by
                  simp [ShortestPathProblem.is_at_end, hterm]),
                if_neg (show ¬(A v = [] ∧ 1 < ([] ++ [v] : List V).length) by
                  simp), hAv,
                pendingRuns_nil_nonterm g N [] v hterm, List.append_nil]
              rfl
            · -- p ≠ [] : reset and step back
              have hpne : p ≠ [] := by
                intro hpe
                rw [hpe] at hu
                cases hu
              have hsb : BruteForceShortestPath.step_back_path (p ++ [v]) =
                  some (u, p) := by
                rw [BruteForceShortestPath.step_back_path, List.dropLast_concat, hu]
              simp only [BruteForceShortestPath.traverse_loop]
              rw [if_neg (show ¬((p ++ [v]).isEmpty = true) by simp),
                if_neg (show ¬(g.is_at_end v = true) by
                  simp [ShortestPathProblem.is_at_end, hterm]),
                if_pos (show A v = [] ∧ 1 < (p ++ [v]).length by
                  refine ⟨hAv, ?_⟩
                  have := List.length_pos.mpr hpne
                  simp only [List.length_append, List.length_cons, List.length_nil]
                  omega), hsb,
                pendingRuns_nil_nonterm g N p v hterm, List.append_nil]
      | append_singleton S' w ihS =>
          intro hS p hp hpgt hvterm A hA hAv
          -- v is not the terminal (it has an available action)
          have hw_act : w ∈ g.available_actions v := hS w (by simp)
          have hterm : v ≠ g.terminal := by
            intro hterm
            rw [ShortestPathProblem.available_actions,
              if_pos ((is_at_end_true_iff g v).mpr hterm)] at hw_act
            cases hw_act
          have hwk : w ∈ g.keys := hclosed v hv w hw_act
          have hwr : rank w < rank v := hrank v hv w hw_act
          have hwnp : w ∉ p := by
            intro hwp
            have := hpgt w hwp
            omega
          have hwv : w ≠ v := by
            intro he
            rw [he] at hwr
            omega
          -- child call at w with the full action list
          have hAw : Function.update A v S' w = g.available_actions w := by
            rw [Function.update_noteq hwv, hA w hwk hwnp hwv]
          rcases ih w hwk (by omega) (g.available_actions w) (fun x hx => hx)
              (p ++ [v])
              (by
                intro u hu
                rcases List.mem_append.mp hu with h | h
                · exact hp u h
                · have : u = v := by simpa using h
                  rw [this]
                  exact hv)
              (by
                intro u hu
                rcases List.mem_append.mp hu with h | h
                · have := hpgt u h
                  omega
                · have : u = v := by simpa using h
                  rw [this]
                  exact hwr)
              (fun _ => by simp)
              (Function.update A v S')
              (by
                intro u hu hunp huw
                have huv : u ≠ v := by
                  intro he
                  exact hunp (by rw [he]; exact List.mem_append.mpr (Or.inr (by simp)))
                have hunp' : u ∉ p := fun hc =>
                  hunp (List.mem_append.mpr (Or.inl hc))
                rw [Function.update_noteq huv, hA u hu hunp' huv])
              hAw
            with ⟨k1, hk1⟩
          -- continue call at v with the shorter list S'
          rcases ihS (fun x hx => hS x (List.mem_append.mpr (Or.inl hx))) p hp hpgt
              hvterm (Function.update A v S')
              (by
                intro u hu hunp huv
                rw [Function.update_noteq huv, hA u hu hunp huv])
              (Function.update_same v S' A)
            with ⟨k2, hk2⟩
          refine ⟨1 + k1 + k2, ?_⟩
          intro acc fuel
          have h1 : 1 + k1 + k2 + fuel = (k1 + (k2 + fuel)) + 1 := by omega
          rw [h1]
          -- one step: pop w and descend
          simp only [BruteForceShortestPath.traverse_loop]
          rw [if_neg (show ¬((p ++ [v]).isEmpty = true) by simp),
            if_neg (show ¬(g.is_at_end v = true) by
              simp [ShortestPathProblem.is_at_end, hterm]),
            if_neg (show ¬(A v = [] ∧ 1 < (p ++ [v]).length) by
              rw [hAv]
              simp), hAv, List.getLast?_concat, List.dropLast_concat]
          -- apply the child run
          have step2 := hk1 acc (k2 + fuel)
          rw [List.getLast?_concat] at step2
          simp only [] at step2
          -- collapse the double update at w
          have hupd : Function.update (Function.update A v S') w
              (g.available_actions w) = Function.update A v S' := by
            rw [← hAw, Function.update_eq_self]
          rw [hupd] at step2
          show BruteForceShortestPath.traverse_loop g (k1 + (k2 + fuel)) w
            ((p ++ [v]) ++ [w]) (Function.update A v S') acc = _
          rw [step2]
          -- apply the sibling run
          rw [hk2 (acc ++ pendingRuns g N (p ++ [v]) w (g.available_actions w)) fuel]
          -- identify the accumulated entries
          have hruns : (acc ++ pendingRuns g N (p ++ [v]) w (g.available_actions w)) ++
              pendingRuns g N p v S' = acc ++ pendingRuns g N p v (S' ++ [w]) := by
            rw [pendingRuns_concat g N p v hterm S' w, pendingRuns_full,
              allPathsFrom_stable g rank hrank hclosed (rank w + 1) w hwk
                (by omega) (N + 1) N (by

                  have := hN w hwk
                  omega) (by
                  have := hN w hwk
                  omega),
              List.append_assoc]
          rcases hu : p.getLast? with - | u
          · rw [hruns]
          · rw [hruns, Function.update_idem]

theorem traverse_loop_mono {V : Type} [DecidableEq V] (g : ShortestPathProblem V) :
    ∀ (f1 f2 : ℕ), f1 ≤ f2 → ∀ (v : V) (cpath : List V) (A : V → List V)
      (acc res : List (List V × ℚ)),
      BruteForceShortestPath.traverse_loop g f1 v cpath A acc = some res →
      BruteForceShortestPath.traverse_loop g f2 v cpath A acc = some res := by
  intro f1
  induction f1 with
  | zero =>
      intro f2 _ v cpath A acc res h
      rw [BruteForceShortestPath.traverse_loop] at h
      exact Option.noConfusion h
  | succ f1 ih =>
      intro f2 hf v cpath A acc res h
      obtain ⟨f2', rfl⟩ : ∃ f2', f2 = f2' + 1 := ⟨f2 - 1, by omega⟩
      simp only [BruteForceShortestPath.traverse_loop] at h ⊢
      by_cases h0 : cpath.isEmpty = true
      · rw [if_pos h0] at h ⊢
        exact h
      · rw [if_neg h0] at h ⊢
        by_cases h1 : g.is_at_end v = true
        · rw [if_pos h1] at h ⊢
          rcases hsb : BruteForceShortestPath.step_back_path cpath with - | ⟨c, p⟩
          · rw [hsb] at h
            exact Option.noConfusion h
          · rw [hsb] at h
            exact ih f2' (by omega) c p A _ res h
        · rw [if_neg h1] at h ⊢
          by_cases h2 : A v = [] ∧ 1 < cpath.length
          · rw [if_pos h2] at h ⊢
            rcases hsb : BruteForceShortestPath.step_back_path cpath with - | ⟨c, p⟩
            · rw [hsb] at h
              exact Option.noConfusion h
            · rw [hsb] at h
              exact ih f2' (by omega) c p _ acc res h
          · rw [if_neg h2] at h ⊢
            rcases hl : (A v).getLast? with - | a
            · rw [hl] at h
              exact h
            · rw [hl] at h
              exact ih f2' (by omega) a (cpath ++ [a]) _ acc res h

theorem traverse_paths_canonical {V : Type} [DecidableEq V]
    (g : ShortestPathProblem V) (rank : V → ℕ) (N : ℕ)
    (hrank : ∀ v ∈ g.keys, ∀ w ∈ g.available_actions v, rank w < rank v)
    (hclosed : ∀ v ∈ g.keys, ∀ w ∈ g.available_actions v, w ∈ g.keys)
    (hN : ∀ v ∈ g.keys, rank v ≤ N)
    (hvk : g.vertex ∈ g.keys) (hvt : g.vertex ≠ g.terminal) :
    ∃ F, BruteForceShortestPath.traverse_paths g F =
      some ((allPathsFrom g (N + 1) g.vertex).map fun q =>
        (q, g.evaluate_path q)) := by
  rcases traverse_run g rank N hrank hclosed hN (rank g.vertex + 1) g.vertex hvk
      (by omega) (g.available_actions g.vertex) (fun x hx => hx) []
      (by intro u hu; cases hu) (by intro u hu; cases hu)
      (fun h => absurd h hvt) (fun v => g.available_actions v)
      (fun u _ _ _ => rfl) rfl
    with ⟨k, hk⟩
  refine ⟨k + 0, ?_⟩
  have := hk [] 0
  rw [BruteForceShortestPath.traverse_paths]
  show BruteForceShortestPath.traverse_loop g (k + 0) g.vertex ([] ++ [g.vertex])
    (fun v => g.available_actions v) [] = _
  rw [this]
  show some ([] ++ pendingRuns g N [] g.vertex (g.available_actions g.vertex)) = _
  rw [List.nil_append, pendingRuns_full]
  rfl

/-- Claim C10 (amended): on a finite acyclic cost-dictionary graph (witnessed
by a rank function decreasing along edges), closed under successors, whose
start vertex differs from the terminal and in which every vertex reaches the
terminal, and for which the cost function returned by `find_cost_function` is
an exact fixed point of the Bellman update (as happens whenever the loop
stops with two successive iterates exactly equal, e.g. for integer costs)
with all action values below the `1e10` sentinel of `find_shortest_path`,
the path extracted by `find_shortest_path` exists and its `evaluate_path`
cost equals the minimum cost over all start-to-terminal paths enumerated by
the brute-force `traverse_paths` (whatever fuel made it terminate), both
being the fixed point value at the start vertex. -/
theorem C10_amended_dp_matches_brute_force {V : Type} [DecidableEq V]
    (g : ShortestPathProblem V) (rank : V → ℕ) (N : ℕ) (J : List (V × ℚ))
    (fuelDP fuelBF : ℕ) (acc : List (List V × ℚ))
    (hrank : ∀ v ∈ g.keys, ∀ w ∈ g.available_actions v, rank w < rank v)
    (hclosed : ∀ v ∈ g.keys, ∀ w ∈ g.available_actions v, w ∈ g.keys)
    (hN : ∀ v ∈ g.keys, rank v ≤ N)
    (hreach : ∀ v ∈ g.keys, reachesIn g N v = true)
    (hvk : g.vertex ∈ g.keys) (hvt : g.vertex ≠ g.terminal)
    (_hJ : DynamicProgrammingShortestPath.find_cost_function g fuelDP = some J)
    (hfix : ∀ v ∈ g.keys, (J.lookup v).getD 0 =
      DynamicProgrammingShortestPath.bellman_equation g v J)
    (hsent : ∀ v ∈ g.keys, ∀ w ∈ g.available_actions v,
      DynamicProgrammingShortestPath.eval_action g v w J < 10000000000)
    (hbf : BruteForceShortestPath.traverse_paths g fuelBF = some acc) :
    ∃ pth,
      DynamicProgrammingShortestPath.find_shortest_path g J (rank g.vertex + 1) =
        some pth ∧
      g.evaluate_path pth = listMin (acc.map Prod.snd) ∧
      listMin (acc.map Prod.snd) = (J.lookup g.vertex).getD 0 := by
  obtain ⟨F, hF⟩ := traverse_paths_canonical g rank N hrank hclosed hN hvk hvt
  have hacc : acc =
      (allPathsFrom g (N + 1) g.vertex).map fun q => (q, g.evaluate_path q) := by
    rw [BruteForceShortestPath.traverse_paths] at hbf hF
    have h1 := traverse_loop_mono g fuelBF (max fuelBF F) (le_max_left _ _)
      _ _ _ _ _ hbf
    have h2 := traverse_loop_mono g F (max fuelBF F) (le_max_right _ _)
      _ _ _ _ _ hF
    rw [h1] at h2
    exact (Option.some.injEq _ _).mp h2
  have hmin : listMin (acc.map Prod.snd) = (J.lookup g.vertex).getD 0 := by
    rw [hacc, List.map_map]
    have he : (Prod.snd ∘ fun q => (q, g.evaluate_path q)) = g.evaluate_path := rfl
    rw [he]
    exact (bellman_value g rank N J hrank hclosed hreach hfix
      (rank g.vertex + 1) g.vertex hvk (by omega) (N + 1)
      (le_trans (hN _ hvk) (by omega))).symm
  obtain ⟨q, hqhead, hqeval, hqloop⟩ := fsp_from g rank N J hrank hclosed hreach
    hfix hsent (rank g.vertex + 1) g.vertex hvk (by omega)
  refine ⟨q, ?_, ?_, hmin⟩
  · have := hqloop [] (rank g.vertex + 1) (by omega)
    rw [DynamicProgrammingShortestPath.find_shortest_path]
    show DynamicProgrammingShortestPath.fsp_loop g J (rank g.vertex + 1)
      g.vertex ([] ++ [g.vertex]) = some q
    rw [this, List.nil_append]
  · rw [hqeval, hmin]

/-- Claim C10 (witness): `C10_amended_dp_matches_brute_force` instantiated on
the lecture graph `simpleG` with its rank function, the fixed point computed
by `find_cost_function`, and the table enumerated by `traverse_paths`. -/
theorem C10_amended_witness :
    ∃ pth,
      DynamicProgrammingShortestPath.find_shortest_path simpleG simpleJ
        (simpleRank simpleG.vertex + 1) = some pth ∧
      simpleG.evaluate_path pth = listMin (simpleAcc.map Prod.snd) ∧
      listMin (simpleAcc.map Prod.snd) =
        (simpleJ.lookup simpleG.vertex).getD 0 :=
  C10_amended_dp_matches_brute_force simpleG simpleRank 4 simpleJ 20 200
    simpleAcc (by decide) (by decide) (by decide) (by decide) (by decide)
    (by decide) (by decide) (by decide) (by decide) (by decide)
